import Mathlib

/-!
Verification of the N-ary tree / succinct-encoding core of this repository.

The development shallowly embeds the C/C++ sources:

* src/succinct_encoding.c and src/succinct_encoding.h (succinct codec kernel,
  packed bit arrays);
* src/Modules/nary_tree_focused.cpp (FocusedNaryTree: array storage,
  rebalance_for_locality, encode_succinct, calculate_locality_score);
* src/Modules/nary_tree_array_based.cpp (ArrayBasedNaryTree: add_child_internal,
  calculate_locality_score);
* src/test_basic_array_tree.cpp (SimpleArrayNaryTree: add_child);
* src/Modules/nary_tree_hybrid_array.cpp (HybridArrayNaryTree:
  add_child_optimized, balance_tree_hybrid, rebuild_hybrid_structure).

Machine integers are modelled as Nat/Int; C++ int sentinels (-1 / UINT32_MAX
for "no index") are modelled as Option Nat.  A write through operator[] at an
index that is not inside the vector is undefined behaviour in C++ and is
modelled by returning none.
-/

set_option linter.unusedVariables false

/-- Pointer-shaped tree node as in struct succinct_node (succinct_encoding.c)
and the PointerNode class of nary_tree_hybrid_array.cpp: a payload together
with an ordered list of children. -/
inductive RTree (α : Type) where
  | node : α → List (RTree α) → RTree α
deriving Repr

mutual

/-- Number of nodes of a tree. -/
def countT {α : Type} : RTree α → Nat
  | .node _ ts => 1 + countF ts

/-- Number of nodes of a forest. -/
def countF {α : Type} : List (RTree α) → Nat
  | [] => 0
  | t :: ts => countT t + countF ts

end

mutual

/-- Depth of a tree, counting nodes on the longest root-to-leaf path
(a single node has depth 1), as computed by the repository's depth() helpers. -/
def depthT {α : Type} : RTree α → Nat
  | .node _ ts => 1 + depthF ts

/-- Maximum depth over a forest (0 for the empty forest). -/
def depthF {α : Type} : List (RTree α) → Nat
  | [] => 0
  | t :: ts => max (depthT t) (depthF ts)

end

mutual

/-- Preorder payload sequence of a tree: the order in which
encode_preorder_kernel (src/succinct_encoding.c, lines 23-49) appends node
payloads to the data array (node first, then its children left to right). -/
def preT {α : Type} : RTree α → List α
  | .node a ts => a :: preF ts

/-- Preorder payload sequence of a forest. -/
def preF {α : Type} : List (RTree α) → List α
  | [] => []
  | t :: ts => preT t ++ preF ts

end

mutual

/-- Structure bits appended by encode_preorder_kernel
(src/succinct_encoding.c, lines 23-49): a 1 bit for the node, the bits of all
children in order, then a closing 0 bit. -/
def encodePreorderBits {α : Type} : RTree α → List Bool
  | .node _ ts => true :: encodePreorderBitsF ts ++ [false]

/-- Structure bits contributed by a forest of children, in order. -/
def encodePreorderBitsF {α : Type} : List (RTree α) → List Bool
  | [] => []
  | t :: ts => encodePreorderBits t ++ encodePreorderBitsF ts

end

/-- Structure bits of succinct_encode_tree_kernel for a possibly-empty tree:
encode_preorder_kernel returns immediately on a null node, so the empty tree
produces an empty bit sequence. -/
def succinctEncodeBits {α : Type} : Option (RTree α) → List Bool
  | none => []
  | some t => encodePreorderBits t

/-- Data array of succinct_encode_tree_kernel for a possibly-empty tree:
the payloads in preorder, empty for the empty tree. -/
def succinctEncodeData {α : Type} : Option (RTree α) → List α
  | none => []
  | some t => preT t

/-- Node count of a possibly-empty tree. -/
def countO {α : Type} : Option (RTree α) → Nat
  | none => 0
  | some t => countT t

/-- Depth of a possibly-empty tree (0 for the empty tree). -/
def depthO {α : Type} : Option (RTree α) → Nat
  | none => 0
  | some t => depthT t

/-- Preorder payload sequence of a possibly-empty tree. -/
def preO {α : Type} : Option (RTree α) → List α
  | none => []
  | some t => preT t

/-- Modelled from the spec: the succinct decoder (NaryTree::decode_succinct in
nary_tree.cpp is not under src/; succinct_decode_tree_kernel in
src/succinct_encoding.c is an unimplemented TODO stub).  Following spec
section 4.4: a single left-to-right scan of the structure bits with an
explicit stack of open nodes and a cursor into the data array.  On a 1 bit the
next payload becomes a new node, a child of the stack's top (or the root if
the stack is empty); on a 0 bit the top node is closed and popped.  A
premature pop, leftover open nodes, a payload/1-bit count mismatch, or a
second root are CorruptEncoding, modelled as none.  Each stack frame holds the
open node's payload and its children collected so far (in reverse). -/
def decodeLoop {α : Type} : List Bool → List α → List (α × List (RTree α)) →
    Option (RTree α) → Option (Option (RTree α))
  | [], ds, st, res =>
      if st.isEmpty ∧ ds.isEmpty then some res else none
  | true :: bs, ds, st, res =>
      match ds with
      | [] => none
      | d :: ds =>
          match st, res with
          | [], some _ => none
          | [], none => decodeLoop bs ds [(d, [])] none
          | fr :: st, res => decodeLoop bs ds ((d, []) :: fr :: st) res
  | false :: bs, ds, st, res =>
      match st with
      | [] => none
      | (d, cs) :: st =>
          match st with
          | [] => decodeLoop bs ds [] (some (.node d cs.reverse))
          | (e, es) :: st =>
              decodeLoop bs ds ((e, RTree.node d cs.reverse :: es) :: st) res

/-- Modelled from the spec (section 4.4): decode a structure-bit sequence and
a preorder data array into a possibly-empty tree, or none on CorruptEncoding. -/
def decodeSuccinct {α : Type} (bs : List Bool) (ds : List α) :
    Option (Option (RTree α)) :=
  decodeLoop bs ds [] none

mutual

/-- Decoding the bits and payloads of one encoded subtree, with a parent frame
on the stack, attaches exactly that subtree as the next child of the frame. -/
theorem decodeLoop_bitsT {α : Type} (t : RTree α) :
    ∀ (bs : List Bool) (ds : List α) (d : α) (cs : List (RTree α))
      (st : List (α × List (RTree α))) (res : Option (RTree α)),
      decodeLoop (encodePreorderBits t ++ bs) (preT t ++ ds) ((d, cs) :: st) res
        = decodeLoop bs ds ((d, t :: cs) :: st) res := by
  match t with
  | .node a ts =>
    intro bs ds d cs st res
    simp only [encodePreorderBits, preT, List.cons_append, List.append_assoc,
      decodeLoop, List.append_eq, List.nil_append]
    rw [decodeLoop_bitsF ts (false :: bs) ds a [] ((d, cs) :: st) res]
    simp [decodeLoop]

/-- Decoding the bits and payloads of an encoded forest, with a parent frame
on the stack, attaches the forest's trees as further children of the frame. -/
theorem decodeLoop_bitsF {α : Type} (ts : List (RTree α)) :
    ∀ (bs : List Bool) (ds : List α) (d : α) (cs : List (RTree α))
      (st : List (α × List (RTree α))) (res : Option (RTree α)),
      decodeLoop (encodePreorderBitsF ts ++ bs) (preF ts ++ ds) ((d, cs) :: st) res
        = decodeLoop bs ds ((d, ts.reverse ++ cs) :: st) res := by
  match ts with
  | [] =>
    intro bs ds d cs st res
    simp [encodePreorderBitsF, preF]
  | t :: ts =>
    intro bs ds d cs st res
    simp only [encodePreorderBitsF, preF, List.append_assoc]
    rw [decodeLoop_bitsT t, decodeLoop_bitsF ts]
    simp

end

/-- Decoding the encoding of one tree on an empty stack installs that tree as
the decoded root. -/
theorem decodeLoop_root {α : Type} (t : RTree α) (bs : List Bool) (ds : List α) :
    decodeLoop (encodePreorderBits t ++ bs) (preT t ++ ds) [] none
      = decodeLoop bs ds [] (some t) := by
  match t with
  | .node a ts =>
    simp only [encodePreorderBits, preT, List.cons_append, List.append_assoc,
      decodeLoop, List.append_eq, List.nil_append]
    rw [decodeLoop_bitsF ts (false :: bs) ds a [] [] none]
    simp [decodeLoop]

mutual

/-- The structure-bit sequence of a tree has exactly two bits per node. -/
theorem encodePreorderBits_length {α : Type} (t : RTree α) :
    (encodePreorderBits t).length = 2 * countT t := by
  match t with
  | .node a ts =>
    simp [encodePreorderBits, countT, encodePreorderBitsF_length ts]
    omega

/-- The structure-bit sequence of a forest has exactly two bits per node. -/
theorem encodePreorderBitsF_length {α : Type} (ts : List (RTree α)) :
    (encodePreorderBitsF ts).length = 2 * countF ts := by
  match ts with
  | [] => simp [encodePreorderBitsF, countF]
  | t :: ts =>
    simp only [encodePreorderBitsF, countF, List.length_append,
      encodePreorderBits_length t, encodePreorderBitsF_length ts]
    omega

end

/-- C1: for every tree, including the empty tree, decoding the succinct
encoding succeeds and returns a tree equal to the original, hence with the
same node count, the same depth, and the same preorder payload sequence. -/
theorem succinct_roundtrip {α : Type} (t : Option (RTree α)) :
    ∃ u, decodeSuccinct (succinctEncodeBits t) (succinctEncodeData t) = some u ∧
      u = t ∧ countO u = countO t ∧ depthO u = depthO t ∧ preO u = preO t := by
  refine ⟨t, ?_, rfl, rfl, rfl, rfl⟩
  match t with
  | none => simp [decodeSuccinct, succinctEncodeBits, succinctEncodeData,
      decodeLoop, List.isEmpty]
  | some t =>
    have h := decodeLoop_root t [] (α := α) []
    simp only [List.append_nil] at h
    simp [decodeSuccinct, succinctEncodeBits, succinctEncodeData, h, decodeLoop,
      List.isEmpty]

/-- C2: the structure-bit sequence produced by the succinct encoder has length
exactly twice the node count, for every tree including the empty one,
independent of the branching structure. -/
theorem succinct_bits_length {α : Type} (t : Option (RTree α)) :
    (succinctEncodeBits t).length = 2 * countO t := by
  match t with
  | none => simp [succinctEncodeBits, countO]
  | some t => simpa [succinctEncodeBits, countO] using encodePreorderBits_length t

mutual

/-- The preorder payload list of a tree has one entry per node. -/
theorem preT_length {α : Type} (t : RTree α) : (preT t).length = countT t := by
  match t with
  | .node a ts =>
    simp [preT, countT, preF_length ts]
    omega

/-- The preorder payload list of a forest has one entry per node. -/
theorem preF_length {α : Type} (ts : List (RTree α)) : (preF ts).length = countF ts := by
  match ts with
  | [] => simp [preF, countF]
  | t :: ts => simp [preF, countF, preT_length t, preF_length ts]

end

/-- Modelled from the spec (section 4.3): one rebuild step of
NaryTree::balance_tree (nary_tree.cpp, not under src/) hands each node of the
previous level up to k children taken in order from the already-built next
level of subtrees. -/
def assignChildren {α : Type} (k : Nat) : List α → List (RTree α) → List (RTree α)
  | [], _ => []
  | r :: rs, f => RTree.node r (f.take k) :: assignChildren k rs (f.drop k)

/-- Modelled from the spec (section 4.3): breadth-first rebuild of the flat
payload list into a complete left-filled k-ary shape.  The nodes of the
current level take their payloads from roots; the next k * roots.length
payloads of rest form the next level, and so on until the list is exhausted.
Structural recursion on fuel; fuel at least rest.length always suffices
because each non-trivial level consumes at least one payload. -/
def buildLevelsAux {α : Type} (k : Nat) : Nat → List α → List α → List (RTree α)
  | 0, roots, _ => roots.map (fun r => RTree.node r [])
  | fuel + 1, roots, rest =>
      if k = 0 ∨ roots.isEmpty ∨ rest.isEmpty then
        roots.map (fun r => RTree.node r [])
      else assignChildren k roots
        (buildLevelsAux k fuel (rest.take (k * roots.length))
          (rest.drop (k * roots.length)))

/-- Modelled from the spec (section 4.3): rebuild with sufficient fuel. -/
def buildLevels {α : Type} (k : Nat) (roots rest : List α) : List (RTree α) :=
  buildLevelsAux k rest.length roots rest

/-- First tree of the rebuilt forest (the forest built from a singleton root
list always has exactly one tree). -/
def headTree {α : Type} (a : α) : List (RTree α) → RTree α
  | [] => RTree.node a []
  | u :: _ => u

/-- Modelled from the spec (section 4.3): NaryTree::balance_tree (nary_tree.cpp
is not under src/; only its test suite src/Modules/test_height_balancing.cpp
is).  Branching factor 0 fails with InvalidArgument (none); the empty tree is
a no-op; otherwise all payloads are collected in preorder and the flat list is
rebuilt breadth-first into a complete left-filled k-ary tree whose root is the
first payload. -/
def balanceTree {α : Type} (k : Nat) (t : Option (RTree α)) :
    Option (Option (RTree α)) :=
  if k = 0 then none
  else
    match t with
    | none => some none
    | some (.node a ts) => some (some (headTree a (buildLevels k [a] (preF ts))))

/-- Geometric sum k + k^2 + ... + k^L, the capacity of levels 1..L of a
k-ary tree. -/
def geomSum (k : Nat) : Nat → Nat
  | 0 => 0
  | l + 1 => k * (1 + geomSum k l)

/-- A forest whose members all have depth at most m has depthF at most m. -/
theorem depthF_le {α : Type} (m : Nat) :
    ∀ ts : List (RTree α), (∀ t ∈ ts, depthT t ≤ m) → depthF ts ≤ m := by
  intro ts
  induction ts with
  | nil => intro _; simp [depthF]
  | cons t ts ih =>
      intro h
      simp only [depthF, max_le_iff]
      exact ⟨h t (by simp), ih fun u hu => h u (by simp [hu])⟩

/-- Every tree produced by assignChildren is a node whose children all come
from the supplied forest. -/
theorem mem_assignChildren {α : Type} (k : Nat) :
    ∀ (rs : List α) (f : List (RTree α)) (t : RTree α),
      t ∈ assignChildren k rs f →
      ∃ r chunk, t = RTree.node r chunk ∧ ∀ c ∈ chunk, c ∈ f := by
  intro rs
  induction rs with
  | nil => intro f t h; simp [assignChildren] at h
  | cons r rs ih =>
      intro f t h
      simp only [assignChildren, List.mem_cons] at h
      rcases h with h | h
      · exact ⟨r, f.take k, h, fun c hc => List.mem_of_mem_take hc⟩
      · rcases ih (f.drop k) t h with ⟨r', chunk, rfl, hc⟩
        exact ⟨r', chunk, rfl, fun c hcc => List.mem_of_mem_drop (hc c hcc)⟩

/-- Depth bound for the breadth-first rebuild: if the payloads still to be
placed fit into L further levels below the current roots, every built tree has
depth at most L + 1. -/
theorem buildLevelsAux_depth {α : Type} (k : Nat) (hk : 1 ≤ k) :
    ∀ (fuel : Nat) (roots rest : List α) (l : Nat),
      rest.length ≤ fuel →
      rest.length ≤ roots.length * geomSum k l →
      ∀ t ∈ buildLevelsAux k fuel roots rest, depthT t ≤ l + 1 := by
  intro fuel
  induction fuel with
  | zero =>
      intro roots rest l hf _ t ht
      have : rest.length = 0 := Nat.le_zero.mp hf
      simp only [buildLevelsAux, List.mem_map] at ht
      rcases ht with ⟨r, _, rfl⟩
      simp [depthT, depthF]
  | succ fuel ih =>
      intro roots rest l hf hcap t ht
      simp only [buildLevelsAux] at ht
      by_cases hcond : k = 0 ∨ roots.isEmpty = true ∨ rest.isEmpty = true
      · rw [if_pos (by simpa using hcond)] at ht
        simp only [List.mem_map] at ht
        rcases ht with ⟨r, _, rfl⟩
        simp [depthT, depthF]
      · rw [if_neg (by simpa using hcond)] at ht
        have hk0 : k ≠ 0 := fun h => hcond (Or.inl h)
        have hroots : roots ≠ [] := fun h => hcond (Or.inr (Or.inl (by simp [h])))
        have hrest : rest ≠ [] := fun h => hcond (Or.inr (Or.inr (by simp [h])))
        have hn : 1 ≤ roots.length := by
          cases roots with
          | nil => exact absurd rfl hroots
          | cons _ _ => simp
        have hr : 1 ≤ rest.length := by
          cases rest with
          | nil => exact absurd rfl hrest
          | cons _ _ => simp
        cases l with
        | zero =>
            exfalso
            rw [show geomSum k 0 = 0 from rfl, Nat.mul_zero] at hcap
            omega
        | succ l =>
            rcases mem_assignChildren k roots _ t ht with ⟨r, chunk, rfl, hchunk⟩
            simp only [depthT]
            have hkn : 1 ≤ k * roots.length := Nat.one_le_iff_ne_zero.mpr
              (Nat.mul_ne_zero hk0 (by omega))
            have hdroplen : (rest.drop (k * roots.length)).length =
                rest.length - k * roots.length := List.length_drop _ _
            have htakelen : (rest.take (k * roots.length)).length =
                min (k * roots.length) rest.length := List.length_take _ _
            have hgeom : roots.length * geomSum k (l + 1) =
                k * roots.length + k * roots.length * geomSum k l := by
              simp only [geomSum]
              ring
            have hsub : ∀ c ∈ chunk, depthT c ≤ l + 1 := by
              intro c hc
              refine ih _ _ l ?_ ?_ c (hchunk c hc)
              · rw [hdroplen]
                omega
              · rw [htakelen]
                rcases Nat.le_total rest.length (k * roots.length) with hle | hle
                · have : (rest.drop (k * roots.length)).length = 0 := by omega
                  omega
                · have hmin : min (k * roots.length) rest.length =
                      k * roots.length := by omega
                  rw [hmin, hdroplen]
                  have := hcap
                  rw [hgeom] at this
                  omega
            have := depthF_le (l + 1) chunk hsub
            omega

/-- Every power k^l is at most 1 + geomSum k l. -/
theorem pow_le_one_add_geomSum (k : Nat) (hk : 1 ≤ k) :
    ∀ l : Nat, k ^ l ≤ 1 + geomSum k l := by
  intro l
  induction l with
  | zero => simp [geomSum]
  | succ l ih =>
      have h1 : k ^ (l + 1) = k * k ^ l := by ring
      have h2 : geomSum k (l + 1) = k * (1 + geomSum k l) := rfl
      have h3 : k * k ^ l ≤ k * (1 + geomSum k l) :=
        Nat.mul_le_mul_left k ih
      omega

/-- General depth bound for the spec-modelled height balancer: for every
branching factor k >= 2 the balanced tree has depth at most
ceil(log_k(node count)) + 1. -/
theorem balanceTree_depth {α : Type} (t : Option (RTree α)) (k : Nat)
    (hk : 2 ≤ k) :
    ∃ r, balanceTree k t = some r ∧
      depthO r ≤ Nat.clog k (countO t) + 1 := by
  have hk0 : ¬ k = 0 := by omega
  match t with
  | none =>
      refine ⟨none, ?_, ?_⟩
      · simp [balanceTree, hk0]
      · simp [depthO]
  | some (.node a ts) =>
      refine ⟨some (headTree a (buildLevels k [a] (preF ts))), ?_, ?_⟩
      · simp [balanceTree, hk0]
      · simp only [depthO, countO]
        set n := countT (RTree.node a ts) with hn
        have hn1 : 1 ≤ n := by simp [hn, countT]
        have hlen : (preF ts).length = n - 1 := by
          have := preT_length (RTree.node a ts)
          simp only [preT, List.length_cons] at this
          have := preF_length ts
          simp [hn, countT, this]
        have hcap : (preF ts).length ≤ 1 * geomSum k (Nat.clog k n) := by
          have hpow : n ≤ k ^ Nat.clog k n := Nat.le_pow_clog (by omega) n
          have := pow_le_one_add_geomSum k (by omega) (Nat.clog k n)
          omega
        have hdepth := buildLevelsAux_depth k (by omega) (preF ts).length
          [a] (preF ts) (Nat.clog k n) le_rfl (by simpa using hcap)
        match hb : buildLevels k [a] (preF ts) with
        | [] => simp [headTree, depthT, depthF]
        | u :: us =>
            have : u ∈ buildLevelsAux k (preF ts).length [a] (preF ts) := by
              rw [← buildLevels, hb]; simp
            simpa [headTree] using hdepth u this

/-- The 10-node chain 1 -> 2 -> ... -> 10 from test_basic_balancing
(src/Modules/test_height_balancing.cpp, lines 51-78). -/
def chain10 : RTree Int :=
  .node 1 [.node 2 [.node 3 [.node 4 [.node 5 [.node 6 [.node 7 [.node 8
    [.node 9 [.node 10 []]]]]]]]]]

/-- C4: for every tree and branching factor k >= 2 the height-balanced tree
has depth at most ceil(log_k n) + 1; in particular the 10-node chain has depth
10 and balancing it with k = 3 yields depth at most 4 with all 10 nodes kept. -/
theorem balance_depth_bound :
    (∀ (t : Option (RTree Int)) (k : Nat), 2 ≤ k →
      ∃ r, balanceTree k t = some r ∧ depthO r ≤ Nat.clog k (countO t) + 1) ∧
    depthT chain10 = 10 ∧
    (∃ r, balanceTree 3 (some chain10) = some r ∧ depthO r ≤ 4 ∧ countO r = 10) := by
  refine ⟨fun t k hk => balanceTree_depth t k hk, by decide, ?_⟩
  exact ⟨_, rfl, by decide, by decide⟩

/-- Witness for the depth-bound theorem: instantiating the universally
quantified part at the 10-node chain and k = 3 discharges its hypothesis. -/
theorem balance_depth_bound_witness :
    ∃ r, balanceTree 3 (some chain10) = some r ∧
      depthO r ≤ Nat.clog 3 (countO (some chain10)) + 1 :=
  balance_depth_bound.1 (some chain10) 3 (by decide)

/-- Packed bit-array write, set_bit_in_array (src/succinct_encoding.h, lines
22-32): bits[bit_index / 8] |= (1 << bit_index % 8) when value is nonzero and
bits[bit_index / 8] &= ~(1 << bit_index % 8) otherwise.  Bytes are Nats below
256; the int-level complement assigned back to an unsigned char keeps only the
low 8 bits, which for bytes below 256 is the mask 255 ^^^ (1 <<< offset).
A write at a byte index outside the array is undefined behaviour in C;
List.set leaves the list unchanged there and the theorems assume the index is
in bounds. -/
def set_bit_in_array (bits : List Nat) (bit_index : Nat) (value : Int) :
    List Nat :=
  let byte_index := bit_index / 8
  let bit_offset := bit_index % 8
  if value ≠ 0 then
    bits.set byte_index (bits.getD byte_index 0 ||| (1 <<< bit_offset))
  else
    bits.set byte_index (bits.getD byte_index 0 &&& (255 ^^^ (1 <<< bit_offset)))

/-- Packed bit-array read, get_bit_from_array (src/succinct_encoding.h, lines
34-40): (bits[bit_index / 8] >> (bit_index % 8)) & 1. -/
def get_bit_from_array (bits : List Nat) (bit_index : Nat) : Nat :=
  (bits.getD (bit_index / 8) 0 >>> (bit_index % 8)) &&& 1

/-- Extracting one bit by shift-and-mask is the test-bit predicate. -/
theorem shiftRight_and_one (x n : Nat) : (x >>> n) &&& 1 = (x.testBit n).toNat := by
  rw [Nat.and_one_is_mod, Nat.testBit_to_div_mod, Nat.shiftRight_eq_div_pow]
  rcases Nat.mod_two_eq_zero_or_one (x / 2 ^ n) with h | h <;> simp [h]

/-- The byte 255 has all eight low bits set. -/
theorem testBit_255 (n : Nat) (h : n < 8) : Nat.testBit 255 n = true := by
  interval_cases n <;> decide

/-- Reading back the byte just written. -/
theorem getD_set_self (l : List Nat) (n w : Nat) (h : n < l.length) :
    (l.set n w).getD n 0 = w := by
  rw [List.getD_eq_getElem?_getD, List.getElem?_set_self (by omega)]
  simp

/-- Writing one byte leaves every other byte unchanged. -/
theorem getD_set_other (l : List Nat) (m n w : Nat) (h : m ≠ n) :
    (l.set m w).getD n 0 = l.getD n 0 := by
  rw [List.getD_eq_getElem?_getD, List.getElem?_set_ne h,
    ← List.getD_eq_getElem?_getD]

/-- C10: setting bit i of a packed bit array makes a subsequent read of bit i
return 1 exactly when the written value was nonzero, and every bit at an index
j different from i keeps its previous value. -/
theorem bit_array_set_get (bits : List Nat) (i j : Nat) (v : Int)
    (hin : i / 8 < bits.length) (hbytes : ∀ b ∈ bits, b < 256) (hne : j ≠ i) :
    get_bit_from_array (set_bit_in_array bits i v) i
        = (if v ≠ 0 then 1 else 0) ∧
      get_bit_from_array (set_bit_in_array bits i v) j
        = get_bit_from_array bits j := by
  have hoff : i % 8 < 8 := Nat.mod_lt _ (by omega)
  have hif : set_bit_in_array bits i v =
      bits.set (i / 8)
        (if v = 0 then bits.getD (i / 8) 0 &&& (255 ^^^ (1 <<< (i % 8)))
          else bits.getD (i / 8) 0 ||| (1 <<< (i % 8))) := by
    simp only [set_bit_in_array]
    by_cases hv : v = 0 <;> simp [hv]
  constructor
  · rw [hif]
    simp only [get_bit_from_array, getD_set_self _ _ _ hin, shiftRight_and_one,
      Nat.one_shiftLeft]
    by_cases hv : v = 0
    · simp [hv, Nat.testBit_land, Nat.testBit_xor, Nat.testBit_two_pow_self,
        testBit_255 _ hoff]
    · simp [hv, Nat.testBit_lor, Nat.testBit_two_pow_self]
  · rw [hif]
    by_cases hbyte : i / 8 = j / 8
    · have hoffne : i % 8 ≠ j % 8 := by omega
      have hoffj : j % 8 < 8 := Nat.mod_lt _ (by omega)
      simp only [get_bit_from_array, ← hbyte, getD_set_self _ _ _ hin,
        shiftRight_and_one, Nat.one_shiftLeft]
      by_cases hv : v = 0
      · simp [hv, Nat.testBit_land, Nat.testBit_xor,
          Nat.testBit_two_pow_of_ne hoffne, testBit_255 _ hoffj]
      · simp [hv, Nat.testBit_lor, Nat.testBit_two_pow_of_ne hoffne]
    · simp only [get_bit_from_array, getD_set_other _ _ _ _ hbyte]

/-- Witness for the bit-array round trip at a concrete array and indices. -/
theorem bit_array_set_get_witness :
    get_bit_from_array (set_bit_in_array [5, 9] 10 1) 10 = 1 ∧
      get_bit_from_array (set_bit_in_array [5, 9] 10 1) 3
        = get_bit_from_array [5, 9] 3 := by
  have h := bit_array_set_get [5, 9] 10 3 1 (by decide)
    (by intro b hb; simp at hb; rcases hb with h | h <;> simp [h]) (by decide)
  simpa using h

/-- Cache-optimized array node of HybridArrayNaryTree
(src/Modules/nary_tree_hybrid_array.cpp, lines 17-24): payload, parent index,
first-child index, child count and depth.  The UINT32_MAX sentinel for "no
index" is modelled as none. -/
structure HNode where
  data : Int
  parentIdx : Option Nat
  firstChildIdx : Option Nat
  childCount : Nat
  nodeDepth : Nat
deriving DecidableEq, Repr

instance : Inhabited HNode := ⟨⟨0, none, none, 0, 0⟩⟩

/-- State of a HybridArrayNaryTree with int payloads: the array portion
(array_storage_ with array_node_count_ = arr.length), the pointer-subtree
roots together with their array_parent_idx_ link, total_size_,
max_children_per_node_ and array_levels_. -/
structure HState where
  arr : List HNode
  ptrRoots : List (Nat × RTree Int)
  totalSize : Nat
  maxChildren : Nat
  arrayLevels : Nat
deriving Repr

/-- calculate_array_capacity (nary_tree_hybrid_array.cpp, lines 280-290):
sum of level sizes 1, k, k^2, ... over array_levels_ levels. -/
def calculate_array_capacity (k : Nat) : Nat → Nat → Nat
  | 0, _ => 0
  | l + 1, levelSize => levelSize + calculate_array_capacity k l (levelSize * k)

/-- Capacity of a state's array portion. -/
def HState.capacity (s : HState) : Nat :=
  calculate_array_capacity s.maxChildren s.arrayLevels 1

/-- Constructor HybridArrayNaryTree(root_data, max_children, array_levels)
(lines 84-98): a single array root at depth 0. -/
def HState.init (rootData : Int) (k levels : Nat) : HState :=
  ⟨[⟨rootData, none, none, 0, 0⟩], [], 1, k, levels⟩

/-- PointerNode::add_child (lines 55-60): append a new leaf child. -/
def pointerAddChild (t : RTree Int) (d : Int) : RTree Int :=
  match t with
  | .node a cs => .node a (cs ++ [.node d []])

/-- find_or_create_pointer_subtree followed by PointerNode::add_child
(lines 320-346): the first root whose array_parent_idx_ matches gets the new
leaf; otherwise a fresh subtree root with a default-constructed payload T{}
(0 for int) is appended and receives the leaf. -/
def addToPtrRoots (roots : List (Nat × RTree Int)) (parent : Nat) (d : Int) :
    List (Nat × RTree Int) :=
  match roots with
  | [] => [(parent, RTree.node 0 [RTree.node d []])]
  | (i, t) :: rest =>
      if i = parent then (i, pointerAddChild t d) :: rest
      else (i, t) :: addToPtrRoots rest parent d

/-- add_child_to_array (lines 293-317): append the child at the end of the
array portion at depth parent.depth + 1 and update the parent's first-child
index (only when it had no children yet) and child count. -/
def addChildToArray (s : HState) (parent : Nat) (d : Int) : HState × Nat :=
  let p := s.arr.getD parent default
  let childIdx := s.arr.length
  let arr1 := s.arr ++ [⟨d, some parent, none, 0, p.nodeDepth + 1⟩]
  let arr2 := arr1.set parent
    { p with
      firstChildIdx := if p.childCount = 0 then some childIdx else p.firstChildIdx,
      childCount := p.childCount + 1 }
  ({ s with arr := arr2, totalSize := s.totalSize + 1 }, childIdx)

/-- add_child_optimized (lines 202-215): throws out_of_range (none) for a
parent index at or beyond array_node_count_; otherwise adds to the array
portion while parent.depth < array_levels_ - 1 (size_t arithmetic, hence the
arrayLevels = 0 disjunct) and the array has spare capacity, and to a pointer
subtree otherwise.  Array children return their index, pointer children
return INVALID_INDEX (none). -/
def add_child_optimized (s : HState) (parent : Nat) (d : Int) :
    Option (HState × Option Nat) :=
  if parent ≥ s.arr.length then none
  else
    let p := s.arr.getD parent default
    if (s.arrayLevels = 0 ∨ p.nodeDepth + 1 < s.arrayLevels) ∧
        s.arr.length < s.capacity then
      let r := addChildToArray s parent d
      some (r.1, some r.2)
    else
      let s2 : HState :=
        { s with
          ptrRoots := addToPtrRoots s.ptrRoots parent d,
          totalSize := s.totalSize + 1 }
      some (s2, none)

/-- Innermost loop of build_array_level (lines 426-439): append up to cnt
children of parentIdx, consuming payloads while the data cursor is in range. -/
def addLevelChildren (data : List Int) :
    Nat → List HNode → Nat → Nat → Nat → List HNode × Nat
  | 0, arr, di, _, _ => (arr, di)
  | c + 1, arr, di, parentIdx, pdepth =>
      if di < data.length then
        addLevelChildren data c
          (arr ++ [⟨data.getD di 0, some parentIdx, none, 0, pdepth + 1⟩])
          (di + 1) parentIdx pdepth
      else (arr, di)

/-- Per-parent loop of build_array_level (lines 416-440): while parents of the
previous level remain and remaining > 0, give the next parent
min(remaining, k) children: record first_child_idx and child_count on the
parent, then append the children.  Returns the array, data cursor and
remaining count. -/
def levelParentsLoop (k : Nat) (data : List Int) :
    Nat → List HNode → Nat → Nat → Nat → List HNode × Nat × Nat
  | 0, arr, di, rem, _ => (arr, di, rem)
  | pl + 1, arr, di, rem, pidx =>
      if rem = 0 then (arr, di, rem)
      else
        let p := arr.getD pidx default
        let cta := min rem k
        let arr1 := arr.set pidx
          { p with firstChildIdx := some arr.length, childCount := cta }
        let r := addLevelChildren data cta arr1 di pidx p.nodeDepth
        levelParentsLoop k data pl r.1 r.2 (rem - (r.2 - di)) (pidx + 1)

/-- build_array_level (lines 408-446): returns unchanged when nothing remains
or the remainder would overflow the capacity; otherwise fills one level via
the parent loop and recurses while the level is non-empty, payloads remain and
the level's depth is still below array_levels_ - 1.  Structural recursion on
fuel; fuel at least remaining + 1 suffices since each continued level consumes
at least one payload. -/
def build_array_level (k cap levels : Nat) (data : List Int) :
    Nat → List HNode → Nat → Nat → Nat → Nat → List HNode × Nat
  | 0, arr, di, _, _, _ => (arr, di)
  | fuel + 1, arr, di, rem, pls, plsz =>
      if rem = 0 ∨ arr.length + rem > cap then (arr, di)
      else
        let levelStart := arr.length
        let r := levelParentsLoop k data plsz arr di rem pls
        let levelSize := r.1.length - levelStart
        if levelSize > 0 ∧ 0 < r.2.2 ∧
            (levels = 0 ∨ (r.1.getD levelStart default).nodeDepth + 1 < levels) then
          build_array_level k cap levels data fuel r.1 r.2.1 r.2.2 levelStart levelSize
        else (r.1, r.2.1)

/-- rebuild_hybrid_structure (lines 360-386) together with
build_balanced_array_portion (lines 389-405): clear everything; for non-empty
data make the first payload the array root, rebuild at most
min(data.length, capacity) payloads into the array levels, leave
build_pointer_portions as the no-op stub it is in the source, and set
total_size_ to data.length. -/
def rebuild_hybrid_structure (s : HState) (data : List Int) : HState :=
  if data.isEmpty then { s with arr := [], ptrRoots := [], totalSize := 0 }
  else
    let arrayElements := min data.length s.capacity
    let root : HNode := ⟨data.headD 0, none, none, 0, 0⟩
    let r := build_array_level s.maxChildren s.capacity s.arrayLevels data
      (arrayElements + 1) [root] 1 (arrayElements - 1) 0 1
    { s with arr := r.1, ptrRoots := [], totalSize := data.length }

/-- balance_tree_hybrid (lines 218-237): no-op for at most one node; otherwise
collect the array payloads in storage order followed by the preorder payloads
of every pointer subtree (collect_pointer_subtree_data, lines 349-357, which
also collects the dummy subtree-root payloads) and rebuild. -/
def balance_tree_hybrid (s : HState) : HState :=
  if s.totalSize ≤ 1 then s
  else
    rebuild_hybrid_structure s
      (s.arr.map HNode.data ++ s.ptrRoots.flatMap (fun r => preT r.2))

/-- One insertion step, keeping the state of a successful add. -/
def hstep (s : HState) (parent : Nat) (d : Int) : HState :=
  match add_child_optimized s parent d with
  | some r => r.1
  | none => s

/-- The chain 1 -> 2 -> 3 -> 4 inserted through add_child_optimized into a
HybridArrayNaryTree(1, 3, 3): nodes 2 and 3 land in the array portion, node 4
exceeds array_levels_ - 1 and lands in a pointer subtree under a
default-payload dummy root. -/
def hybridChain4 : HState :=
  hstep (hstep (hstep (HState.init 1 3 3) 0 2) 1 3) 2 4

/-- C3 failing-input evaluation: the 4-node chain has total_size_ 4 and
payloads 1,2,3,4, but balance_tree_hybrid collects the dummy pointer-subtree
root payload 0 as well, so the rebalanced tree has total_size_ 5 and payload
multiset 0,1,2,3,4 instead of the original 1,2,3,4. -/
theorem hybrid_balance_dummy_payload :
    hybridChain4.totalSize = 4 ∧
      hybridChain4.arr.map HNode.data = [1, 2, 3] ∧
      hybridChain4.ptrRoots.flatMap (fun r => preT r.2) = [0, 4] ∧
      (balance_tree_hybrid hybridChain4).totalSize = 5 ∧
      (balance_tree_hybrid hybridChain4).arr.map HNode.data = [1, 2, 3, 0, 4] ∧
      (balance_tree_hybrid hybridChain4).ptrRoots.length = 0 := by
  decide

/-- Array node shared by SimpleArrayNaryTree (src/test_basic_array_tree.cpp,
lines 9-18), ArrayBasedNaryTree (src/Modules/nary_tree_array_based.cpp,
lines 13-23) and FocusedNaryTree (src/Modules/nary_tree_focused.cpp,
lines 12-22): payload, parent index, first-child index, child count and a
validity flag.  The int sentinel -1 for "no index" is modelled as none. -/
structure ANode (α : Type) where
  data : α
  parentIdx : Option Nat
  firstChildIdx : Option Nat
  childCount : Nat
  valid : Bool
deriving DecidableEq, Repr

/-- Default-constructed ArrayNode: invalid, no links, no children. -/
def defaultNode {α : Type} [Inhabited α] : ANode α :=
  ⟨default, none, none, 0, false⟩

/-- State of a SimpleArrayNaryTree (src/test_basic_array_tree.cpp): the node
vector, root_index_ and next_free_index_. -/
structure SimpleTree (α : Type) where
  nodes : List (ANode α)
  rootIdx : Nat
  nextFree : Nat
deriving DecidableEq, Repr

/-- SimpleArrayNaryTree(root_data) (lines 26-28). -/
def SimpleTree.init {α : Type} (d : α) : SimpleTree α :=
  ⟨[⟨d, none, none, 0, true⟩], 0, 1⟩

/-- SimpleArrayNaryTree::add_child (src/test_basic_array_tree.cpp, lines
30-46): return -1 without touching the store when the parent index is
negative, out of range, or refers to an invalid slot; otherwise push the new
node, link it to its parent and update the parent's first-child index (for a
first child) and child count. -/
def simple_add_child {α : Type} [Inhabited α] (s : SimpleTree α) (parent : Int)
    (d : α) : SimpleTree α × Int :=
  if parent < 0 ∨ (s.nodes.length : Int) ≤ parent ∨
      ¬ (s.nodes.getD parent.toNat defaultNode).valid = true then
    (s, -1)
  else
    let childIdx := s.nextFree
    let nodes1 := s.nodes ++ [⟨d, none, none, 0, true⟩]
    let nodes2 := nodes1.set childIdx
      { nodes1.getD childIdx defaultNode with parentIdx := some parent.toNat }
    let p := nodes2.getD parent.toNat defaultNode
    let nodes3 := nodes2.set parent.toNat
      { p with
        firstChildIdx := if p.childCount = 0 then some childIdx else p.firstChildIdx,
        childCount := p.childCount + 1 }
    (⟨nodes3, s.rootIdx, s.nextFree + 1⟩, (childIdx : Int))

/-- C5 (amended): SimpleArrayNaryTree::add_child fails with -1 and leaves the
store exactly in its pre-call state for every store state and every parent
handle that is negative, out of range, or refers to a tombstoned slot. -/
theorem simple_add_child_invalid_parent {α : Type} [Inhabited α]
    (s : SimpleTree α) (parent : Int) (d : α)
    (h : parent < 0 ∨ (s.nodes.length : Int) ≤ parent ∨
      ¬ (s.nodes.getD parent.toNat defaultNode).valid = true) :
    simple_add_child s parent d = (s, -1) := by
  simp only [simple_add_child]
  rw [if_pos h]

/-- Witness: adding under the out-of-range parent 5 of a one-node store fails
and changes nothing. -/
theorem simple_add_child_invalid_parent_witness :
    simple_add_child (SimpleTree.init (0 : Int)) 5 7
      = (SimpleTree.init (0 : Int), -1) :=
  simple_add_child_invalid_parent (SimpleTree.init (0 : Int)) 5 7
    (by decide)

/-- State of an ArrayBasedNaryTree (src/Modules/nary_tree_array_based.cpp):
node vector, root_index_, size_ and capacity_.  Only states holding a root
are modelled (the ArrayBasedNaryTree(root_data) constructor, lines 82-86). -/
structure ABTree (α : Type) where
  nodes : List (ANode α)
  rootIdx : Nat
  treeSize : Nat
  cap : Nat
deriving DecidableEq, Repr

/-- ArrayBasedNaryTree(root_data) (lines 82-86). -/
def ABTree.init {α : Type} (d : α) : ABTree α :=
  ⟨[⟨d, none, none, 0, true⟩], 0, 1, 1024⟩

/-- The scan of add_child_internal (lines 142-145): starting at i, advance
past the run of in-bounds valid slots and return the first index that is out
of bounds or invalid. -/
def scanInsertIdxAux {α : Type} [Inhabited α] (nodes : List (ANode α)) :
    Nat → Nat → Nat
  | 0, i => i
  | fuel + 1, i =>
      if i < nodes.length ∧ (nodes.getD i defaultNode).valid = true then
        scanInsertIdxAux nodes fuel (i + 1)
      else i

/-- The scan entry point with fuel nodes.length - i, which never runs out:
whenever the loop continues, i is below nodes.length, so the remaining
distance to the end is positive and decreases by one each step. -/
def scanInsertIdx {α : Type} [Inhabited α] (nodes : List (ANode α)) (i : Nat) :
    Nat :=
  scanInsertIdxAux nodes (nodes.length - i) i

/-- Children candidates of rebalance_breadth_first (lines 53-67): the slots
first_child + i for i < child_count that are in bounds and valid; nothing when
first_child is -1. -/
def abRelayChildren {α : Type} [Inhabited α] (old : List (ANode α)) (cur : Nat) :
    List Nat :=
  match (old.getD cur defaultNode).firstChildIdx with
  | none => []
  | some fc =>
      ((List.range (old.getD cur defaultNode).childCount).map (fun i => fc + i)).filter
        (fun c => decide (c < old.length) && (old.getD c defaultNode).valid)

/-- Appending one BFS batch of children in rebalance_breadth_first (lines
58-66): each child is copied with its parent index rewritten to the parent's
new position, the old-to-new mapping is recorded, and the child is enqueued. -/
def abAppendKids {α : Type} [Inhabited α] (old : List (ANode α)) (curNew : Nat) :
    List Nat → List (ANode α) → List (Option Nat) → List Nat →
      List (ANode α) × List (Option Nat) × List Nat
  | [], nw, m, q => (nw, m, q)
  | c :: cs, nw, m, q =>
      abAppendKids old curNew cs
        (nw ++ [{ old.getD c defaultNode with parentIdx := some curNew }])
        (m.set c (some nw.length)) (q ++ [c])

/-- BFS loop of ArrayBasedNaryTree::rebalance_breadth_first (lines 47-69),
with fuel bounding the number of processed queue entries; a node whose
old-to-new entry was never written would read old_to_new as -1 and index
new_nodes out of bounds in C++, modelled as none, as is fuel exhaustion
(the C++ loop does not terminate on parent-link cycles). -/
def abRelayLoop {α : Type} [Inhabited α] (old : List (ANode α)) :
    Nat → List (ANode α) → List (Option Nat) → List Nat →
      Option (List (ANode α))
  | _, nw, _, [] => some nw
  | 0, _, _, _ :: _ => none
  | fuel + 1, nw, m, cur :: rest =>
      match m.getD cur none with
      | none => none
      | some curNew =>
          match (old.getD cur defaultNode).firstChildIdx with
          | none => abRelayLoop old fuel nw m rest
          | some _ =>
              let cs := abRelayChildren old cur
              let nw1 := nw.set curNew
                { nw.getD curNew defaultNode with firstChildIdx := some nw.length }
              let r := abAppendKids old curNew cs nw1 m rest
              abRelayLoop old fuel r.1 r.2.1 r.2.2

/-- ArrayBasedNaryTree::rebalance_breadth_first (lines 32-75): BFS from the
root into a fresh vector, rewriting parent links through the old-to-new map;
the root copy keeps its old child links and gets parent -1.  Afterwards the
root index is 0 and capacity_ equals the new vector's length. -/
def ab_rebalance_breadth_first {α : Type} [Inhabited α] (s : ABTree α) :
    Option (ABTree α) :=
  if s.rootIdx < s.nodes.length then
    let root0 := { s.nodes.getD s.rootIdx defaultNode with parentIdx := none }
    match abRelayLoop s.nodes s.nodes.length [root0]
      ((List.replicate s.nodes.length (none : Option Nat)).set s.rootIdx (some 0))
      [s.rootIdx] with
    | none => none
    | some nw => some ⟨nw, 0, s.treeSize, nw.length⟩
  else none

/-- ArrayBasedNaryTree::add_child_internal (src/Modules/
nary_tree_array_based.cpp, lines 128-180).  Capacity doubles (reserve only)
when the vector is full.  A parent with no children gets the child right
after the run of valid slots following it when parent + 1 is in range,
resizing when the scan hits the end; when parent + 1 is not in range the
insert index stays at nodes_.size() and no resize happens, so the final
operator[] write is out of bounds (none).  A parent with children places the
child at first_child + child_count, resizing when needed.  Reading a parent
at or beyond the vector is out of bounds (none).  Every 100th insertion
triggers rebalance_breadth_first followed by a search for the new child by
payload and old parent index. -/
def ab_add_child_internal {α : Type} [Inhabited α] [DecidableEq α]
    (s : ABTree α) (parent : Nat) (d : α) : Option (ABTree α × Nat) :=
  let cap1 := if s.nodes.length ≥ s.cap then s.cap * 2 else s.cap
  if parent < s.nodes.length then
    let p := s.nodes.getD parent defaultNode
    let step : List (ANode α) × Nat :=
      if p.childCount = 0 then
        if parent + 1 < s.nodes.length then
          let ii := scanInsertIdx s.nodes (parent + 1)
          let nodesR := if s.nodes.length ≤ ii then
              s.nodes ++ List.replicate (ii + 1 - s.nodes.length) defaultNode
            else s.nodes
          (nodesR.set parent
            { nodesR.getD parent defaultNode with firstChildIdx := some ii }, ii)
        else
          (s.nodes.set parent { p with firstChildIdx := some s.nodes.length },
            s.nodes.length)
      else
        let fcInt : Int := match p.firstChildIdx with
          | none => -1
          | some n => (n : Int)
        let ii := (fcInt + (p.childCount : Int)).toNat
        let nodesR := if s.nodes.length ≤ ii then
            s.nodes ++ List.replicate (ii + 1 - s.nodes.length) defaultNode
          else s.nodes
        (nodesR, ii)
    if step.2 < step.1.length then
      let nodes2 := step.1.set step.2 ⟨d, some parent, none, 0, true⟩
      let nodes3 := nodes2.set parent
        { nodes2.getD parent defaultNode with
          childCount := (nodes2.getD parent defaultNode).childCount + 1 }
      let s2 : ABTree α := ⟨nodes3, s.rootIdx, s.treeSize + 1, cap1⟩
      if s2.treeSize % 100 = 0 then
        match ab_rebalance_breadth_first s2 with
        | none => none
        | some s3 =>
            match (List.range s3.nodes.length).find? (fun i =>
                (s3.nodes.getD i defaultNode).valid &&
                decide ((s3.nodes.getD i defaultNode).data = d) &&
                decide ((s3.nodes.getD i defaultNode).parentIdx = some parent)) with
            | some i => some (s3, i)
            | none => some (s3, step.2)
      else some (s2, step.2)
    else none
  else none

/-- A store state with an in-range tombstoned slot 1 between two valid nodes. -/
def abTomb : ABTree Int :=
  ⟨[⟨10, none, none, 0, true⟩, ⟨0, none, none, 0, false⟩,
    ⟨11, some 0, none, 0, true⟩], 0, 2, 1024⟩

/-- C5 counterexample evaluation: ArrayBasedNaryTree::add_child_internal
performs no parent-validity check, so adding under the tombstoned slot 1
succeeds (returns child index 3), grows the store and bumps size_ from 2 to
3 instead of failing with the store unchanged. -/
theorem ab_add_child_tombstone_mutates :
    abTomb.treeSize = 2 ∧ abTomb.nodes.length = 3 ∧
      (ab_add_child_internal abTomb 1 99).map
          (fun r => (r.1.treeSize, r.1.nodes.length, r.2))
        = some (3, 4, 3) := by
  decide

/-- C6 failing-input evaluation: on a freshly constructed one-node
ArrayBasedNaryTree, adding the first child takes the zero-children branch with
parent + 1 = nodes_.size(), skips the resize, and writes through operator[] at
index nodes_.size() - an out-of-bounds vector write (undefined behaviour),
modelled as none. -/
theorem ab_first_child_out_of_bounds :
    ab_add_child_internal (ABTree.init (7 : Int)) 0 42 = none := by
  decide

/-- The int value of a first-child field, -1 for "no children"
(the sentinel the C++ stores in first_child_index). -/
def fcInt {α : Type} (n : ANode α) : Int :=
  match n.firstChildIdx with
  | none => -1
  | some k => (k : Int)

/-- Per-node samples of ArrayBasedNaryTree::calculate_locality_score
(src/Modules/nary_tree_array_based.cpp, lines 241-270): a valid node with
children contributes 1/(1 + |first_child - (i+1)|/10) and, for each child
beyond the first, 1 when slot first_child + j is in bounds and valid and 0.5
otherwise.  Each score += in the loop is one sample; comparisons counts them. -/
def abNodeSamples {α : Type} [Inhabited α] (nodes : List (ANode α)) (i : Nat) :
    List ℚ :=
  let n := nodes.getD i defaultNode
  if n.valid = true ∧ 0 < n.childCount then
    (1 / (1 + (((fcInt n - ((i : Int) + 1)).natAbs : ℚ)) / 10)) ::
      (List.range (n.childCount - 1)).map (fun j0 =>
        if (fcInt n + ((j0 : Int) + 1)).toNat < nodes.length ∧
            (nodes.getD (fcInt n + ((j0 : Int) + 1)).toNat defaultNode).valid
              = true then (1 : ℚ)
        else 1 / 2)
  else []

/-- All samples of the ArrayBased score loop, in slot order. -/
def abSamples {α : Type} [Inhabited α] (nodes : List (ANode α)) : List ℚ :=
  (List.range nodes.length).flatMap (abNodeSamples nodes)

/-- ArrayBasedNaryTree::calculate_locality_score (lines 241-270): 1.0 when
size_ <= 1, otherwise the accumulated score divided by the number of
comparisons, or 1.0 when there were none. -/
def calculate_locality_score_array {α : Type} [Inhabited α]
    (nodes : List (ANode α)) (size : Nat) : ℚ :=
  if size ≤ 1 then 1
  else if (abSamples nodes).isEmpty then 1
  else (abSamples nodes).sum / ((abSamples nodes).length : ℚ)

/-- Per-node samples of FocusedNaryTree::calculate_locality_score
(src/Modules/nary_tree_focused.cpp, lines 189-217): identical to the
ArrayBased variant except that the closeness distance is
|first_child - i| rather than |first_child - (i+1)|. -/
def fNodeSamples {α : Type} [Inhabited α] (nodes : List (ANode α)) (i : Nat) :
    List ℚ :=
  let n := nodes.getD i defaultNode
  if n.valid = true ∧ 0 < n.childCount then
    (1 / (1 + (((fcInt n - (i : Int)).natAbs : ℚ)) / 10)) ::
      (List.range (n.childCount - 1)).map (fun j0 =>
        if (fcInt n + ((j0 : Int) + 1)).toNat < nodes.length ∧
            (nodes.getD (fcInt n + ((j0 : Int) + 1)).toNat defaultNode).valid
              = true then (1 : ℚ)
        else 1 / 2)
  else []

/-- All samples of the Focused score loop, in slot order. -/
def fSamples {α : Type} [Inhabited α] (nodes : List (ANode α)) : List ℚ :=
  (List.range nodes.length).flatMap (fNodeSamples nodes)

/-- FocusedNaryTree::calculate_locality_score (lines 189-217): 1.0 for an
empty node vector, otherwise the accumulated score divided by the number of
comparisons, or 1.0 when there were none. -/
def calculate_locality_score_focused {α : Type} [Inhabited α]
    (nodes : List (ANode α)) : ℚ :=
  if nodes.isEmpty then 1
  else if (fSamples nodes).isEmpty then 1
  else (fSamples nodes).sum / ((fSamples nodes).length : ℚ)

/-- The locality score as the claim words it: the mean over all samples,
where each internal node contributes the closeness sample
1/(1 + |first_child - (self_index+1)|/10) and each child beyond the first
contributes 1 when it is physically adjacent to its predecessor (it actually
occupies the in-bounds valid slot first_child + j right after its
predecessor's slot) and 0.5 otherwise; an empty or single-node tree scores
exactly 1. -/
def claimNodeSamples {α : Type} [Inhabited α] (nodes : List (ANode α)) (i : Nat) :
    List ℚ :=
  let n := nodes.getD i defaultNode
  if n.valid = true ∧ 0 < n.childCount then
    (1 / (1 + (((fcInt n - ((i : Int) + 1)).natAbs : ℚ)) / 10)) ::
      (List.range (n.childCount - 1)).map (fun j0 =>
        if (fcInt n + ((j0 : Int) + 1)).toNat < nodes.length ∧
            (nodes.getD (fcInt n + ((j0 : Int) + 1)).toNat defaultNode).valid
              = true then (1 : ℚ)
        else 1 / 2)
  else []

/-- The claimed locality score: the mean of the claimed samples, with the
empty/single-node convention. -/
def claim_locality_score {α : Type} [Inhabited α] (nodes : List (ANode α))
    (size : Nat) : ℚ :=
  if size ≤ 1 then 1
  else
    let samples := (List.range nodes.length).flatMap (claimNodeSamples nodes)
    if samples.isEmpty then 1
    else samples.sum / (samples.length : ℚ)

/-- Every sample of the ArrayBased/Focused/claimed score loops lies in [0,1]. -/
theorem sample_mem_bounds (closeness : ℚ) (rest : List ℚ)
    (hclose : ∃ d : ℚ, 0 ≤ d ∧ closeness = 1 / (1 + d / 10))
    (hrest : ∀ x ∈ rest, x = 1 ∨ x = 1 / 2) :
    ∀ x ∈ closeness :: rest, 0 ≤ x ∧ x ≤ 1 := by
  intro x hx
  rcases List.mem_cons.mp hx with rfl | hx
  · rcases hclose with ⟨d, hd, rfl⟩
    constructor
    · positivity
    · rw [div_le_one (by positivity)]
      linarith
  · rcases hrest x hx with rfl | rfl <;> norm_num

/-- The mean of a list of rationals in [0,1] lies in [0,1] (division by a
zero length yields 0). -/
theorem mean_mem_unit (l : List ℚ) (h : ∀ x ∈ l, 0 ≤ x ∧ x ≤ 1) :
    0 ≤ l.sum / (l.length : ℚ) ∧ l.sum / (l.length : ℚ) ≤ 1 := by
  match l with
  | [] => simp
  | y :: ys =>
      have hsum0 : 0 ≤ (y :: ys).sum :=
        List.sum_nonneg fun x hx => (h x hx).1
      have hsum1 : (y :: ys).sum ≤ ((y :: ys).length : ℚ) := by
        have := List.sum_le_card_nsmul (y :: ys) 1 fun x hx => (h x hx).2
        simpa using this
      have hlen : (0 : ℚ) < ((y :: ys).length : ℚ) := by
        simp
        positivity
      constructor
      · positivity
      · rw [div_le_one hlen]
        exact hsum1

/-- Bounds for every ArrayBased per-node sample. -/
theorem abNodeSamples_bounds {α : Type} [Inhabited α] (nodes : List (ANode α))
    (i : Nat) : ∀ x ∈ abNodeSamples nodes i, 0 ≤ x ∧ x ≤ 1 := by
  intro x hx
  simp only [abNodeSamples] at hx
  split at hx
  · refine sample_mem_bounds _ _ ⟨_, ?_, rfl⟩ ?_ x hx
    · positivity
    · intro y hy
      simp only [List.mem_map] at hy
      rcases hy with ⟨j0, _, rfl⟩
      split <;> simp
  · simp at hx

/-- Bounds for every Focused per-node sample. -/
theorem fNodeSamples_bounds {α : Type} [Inhabited α] (nodes : List (ANode α))
    (i : Nat) : ∀ x ∈ fNodeSamples nodes i, 0 ≤ x ∧ x ≤ 1 := by
  intro x hx
  simp only [fNodeSamples] at hx
  split at hx
  · refine sample_mem_bounds _ _ ⟨_, ?_, rfl⟩ ?_ x hx
    · positivity
    · intro y hy
      simp only [List.mem_map] at hy
      rcases hy with ⟨j0, _, rfl⟩
      split <;> simp
  · simp at hx

/-- C9 (amended): the ArrayBasedNaryTree locality score is exactly the
claimed mean (closeness term |first_child - (self_index+1)|), every score lies
in [0,1] for the ArrayBased and the Focused variant alike, and the
empty/single-node conventions give exactly 1; the Focused variant, however,
uses |first_child - self_index| in its closeness sample. -/
theorem locality_score_spec :
    (∀ (nodes : List (ANode Int)) (size : Nat),
        calculate_locality_score_array nodes size
          = claim_locality_score nodes size) ∧
      (∀ (nodes : List (ANode Int)) (size : Nat),
        0 ≤ calculate_locality_score_array nodes size ∧
          calculate_locality_score_array nodes size ≤ 1) ∧
      (∀ nodes : List (ANode Int),
        0 ≤ calculate_locality_score_focused nodes ∧
          calculate_locality_score_focused nodes ≤ 1) ∧
      (∀ (nodes : List (ANode Int)) (size : Nat), size ≤ 1 →
        calculate_locality_score_array nodes size = 1) ∧
      calculate_locality_score_focused ([] : List (ANode Int)) = 1 := by
  refine ⟨fun nodes size => rfl, ?_, ?_, ?_, by decide⟩
  · intro nodes size
    simp only [calculate_locality_score_array]
    split
    · norm_num
    · split
      · norm_num
      · exact mean_mem_unit _ fun x hx => by
          simp only [abSamples, List.mem_flatMap] at hx
          rcases hx with ⟨i, _, hx⟩
          exact abNodeSamples_bounds nodes i x hx
  · intro nodes
    simp only [calculate_locality_score_focused]
    split
    · norm_num
    · split
      · norm_num
      · exact mean_mem_unit _ fun x hx => by
          simp only [fSamples, List.mem_flatMap] at hx
          rcases hx with ⟨i, _, hx⟩
          exact fNodeSamples_bounds nodes i x hx
  · intro nodes size h
    simp [calculate_locality_score_array, h]

/-- Witness: the single-node convention at a concrete store. -/
theorem locality_score_spec_witness :
    calculate_locality_score_array
      ([⟨5, none, none, 0, true⟩] : List (ANode Int)) 1 = 1 :=
  locality_score_spec.2.2.2.1 [⟨5, none, none, 0, true⟩] 1 (by decide)

/-- A two-node store: the root at slot 0 with its only child at slot 1. -/
def fNodes0 : List (ANode Int) :=
  [⟨0, none, some 1, 1, true⟩, ⟨0, some 0, none, 0, true⟩]

/-- C9 counterexample: on the two-node store the claimed formula (and the
ArrayBased code) scores 1, since first_child = self_index + 1 exactly, but
FocusedNaryTree::calculate_locality_score computes |first_child - self_index|
= 1 and scores 10/11. -/
theorem focused_locality_differs :
    calculate_locality_score_focused fNodes0 ≠ claim_locality_score fNodes0 2 ∧
      claim_locality_score fNodes0 2 = 1 ∧
      calculate_locality_score_focused fNodes0 = 10 / 11 := by
  have hf : calculate_locality_score_focused fNodes0 = 10 / 11 := by
    have h : fSamples fNodes0 = [1 / (1 + 1 / 10)] := by
      norm_num [fSamples, fNodes0, fNodeSamples, fcInt, defaultNode,
        List.range_succ]
    rw [calculate_locality_score_focused, h]
    norm_num [fNodes0]
  have hc : claim_locality_score fNodes0 2 = 1 := by
    have h : (List.range fNodes0.length).flatMap (claimNodeSamples fNodes0)
        = [1 / (1 + 0 / 10)] := by
      norm_num [fNodes0, claimNodeSamples, fcInt, defaultNode,
        List.range_succ]
    rw [claim_locality_score]
    norm_num [h]
  refine ⟨?_, hc, hf⟩
  rw [hf, hc]
  norm_num

/-- State of a FocusedNaryTree (src/Modules/nary_tree_focused.cpp): node
vector, root_index_, size_ and operations_since_balance_. -/
structure FTree (α : Type) where
  nodes : List (ANode α)
  rootIdx : Nat
  treeSize : Nat
  ops : Nat
deriving DecidableEq, Repr

/-- The children scan of rebalance_for_locality (lines 127-132): all slots i,
in increasing order, that are valid and have parent_index equal to x. -/
def childrenOf {α : Type} [Inhabited α] (nodes : List (ANode α)) (x : Nat) :
    List Nat :=
  (List.range nodes.length).filter (fun i =>
    (nodes.getD i defaultNode).valid && decide ((nodes.getD i defaultNode).parentIdx = some x))

/-- Position of the first occurrence of x, as old_to_new records it. -/
def posOf (x : Nat) : List Nat → Option Nat
  | [] => none
  | y :: ys => if y = x then some 0 else (posOf x ys).map (fun t => t + 1)

/-- BFS loop of FocusedNaryTree::rebalance_for_locality (lines 121-147): pop
the front of the queue, look its new position up in old_to_new (-1, modelled
none, would index new_nodes out of bounds in C++), scan for its children;
when there are any, point the node's copy at the end of the new vector, set
its child count, and append all children (abAppendKids is the same
copy-rewrite-enqueue loop as in the ArrayBased variant).  Fuel bounds the
number of processed queue entries; the C++ loop runs forever on parent-link
cycles, modelled as none. -/
def relayLoop {α : Type} [Inhabited α] (old : List (ANode α)) :
    Nat → List (ANode α) → List (Option Nat) → List Nat →
      Option (List (ANode α) × List (Option Nat))
  | _, nw, m, [] => some (nw, m)
  | 0, _, _, _ :: _ => none
  | fuel + 1, nw, m, cur :: rest =>
      match m.getD cur none with
      | none => none
      | some curNew =>
          let cs := childrenOf old cur
          if cs.isEmpty then relayLoop old fuel nw m rest
          else
            if curNew < nw.length then
              let nw1 := nw.set curNew
                { nw.getD curNew defaultNode with
                  firstChildIdx := some nw.length,
                  childCount := cs.length }
              let r := abAppendKids old curNew cs nw1 m rest
              relayLoop old fuel r.1 r.2.1 r.2.2
            else none

/-- FocusedNaryTree::rebalance_for_locality (lines 104-152): nothing happens
on an empty vector; otherwise the root is copied first with parent,
first-child and child count reset, old_to_new maps the root to 0, and the BFS
loop runs.  Afterwards root_index_ is 0 and operations_since_balance_ is 0;
size_ is untouched.  Reading nodes_[root_index_] out of bounds is undefined
behaviour (none). -/
def rebalance_for_locality {α : Type} [Inhabited α] (s : FTree α) :
    Option (FTree α) :=
  if s.nodes.isEmpty then some s
  else if s.rootIdx < s.nodes.length then
    let root0 := { s.nodes.getD s.rootIdx defaultNode with
      parentIdx := none, firstChildIdx := none, childCount := 0 }
    match relayLoop s.nodes s.nodes.length [root0]
        ((List.replicate s.nodes.length (none : Option Nat)).set s.rootIdx (some 0))
        [s.rootIdx] with
    | none => none
    | some r => some ⟨r.1, 0, s.treeSize, 0⟩
  else none

/-- Bounded parent chase: true when following parent links from i (checking
each parent is in range and valid on the way) reaches the root within the
given fuel. -/
def chaseAux {α : Type} [Inhabited α] (nodes : List (ANode α)) (rootIdx : Nat) :
    Nat → Nat → Bool
  | 0, i => decide (i = rootIdx)
  | fuel + 1, i =>
      if i = rootIdx then true
      else
        match (nodes.getD i defaultNode).parentIdx with
        | none => false
        | some p => decide (p < nodes.length) &&
            (nodes.getD p defaultNode).valid && chaseAux nodes rootIdx fuel p

/-- Well-formed FocusedNaryTree store: the root is in range, valid and
parentless; every valid node reaches the root by a chain of in-range valid
parents within nodes.length steps (so parent links are acyclic and every
valid node is reachable); and a valid node without scan-children has child
count 0 (its links are not stale). -/
def WfFocused {α : Type} [Inhabited α] (s : FTree α) : Prop :=
  s.rootIdx < s.nodes.length ∧
    (s.nodes.getD s.rootIdx defaultNode).valid = true ∧
    (s.nodes.getD s.rootIdx defaultNode).parentIdx = none ∧
    (∀ i, i < s.nodes.length → (s.nodes.getD i defaultNode).valid = true →
      chaseAux s.nodes s.rootIdx s.nodes.length i = true) ∧
    (∀ i, i < s.nodes.length → (s.nodes.getD i defaultNode).valid = true →
      childrenOf s.nodes i = [] →
      (s.nodes.getD i defaultNode).childCount = 0)

/-- Start of the block of new positions that hold the children of the node at
new position t: one past the root plus all children of earlier positions. -/
def blockStart {α : Type} [Inhabited α] (old : List (ANode α)) (app : List Nat)
    (t : Nat) : Nat :=
  1 + ((app.take t).flatMap (childrenOf old)).length

/-- Membership in the children scan. -/
theorem mem_childrenOf {α : Type} [Inhabited α] (nodes : List (ANode α))
    (x c : Nat) :
    c ∈ childrenOf nodes x ↔
      c < nodes.length ∧ (nodes.getD c defaultNode).valid = true ∧
        (nodes.getD c defaultNode).parentIdx = some x := by
  simp [childrenOf, List.mem_filter, List.mem_range, and_assoc]

/-- The children scan has no duplicates. -/
theorem childrenOf_nodup {α : Type} [Inhabited α] (nodes : List (ANode α))
    (x : Nat) : (childrenOf nodes x).Nodup :=
  (List.nodup_range _).filter _

/-- An in-range getD is a member. -/
theorem getD_mem_of_lt {β : Type} (l : List β) (d : β) (t : Nat)
    (h : t < l.length) : l.getD t d ∈ l := by
  rw [List.getD_eq_getElem?_getD, List.getElem?_eq_getElem h]
  simp

/-- posOf finds an index with the right element. -/
theorem posOf_eq_some (x : Nat) :
    ∀ (l : List Nat) (t : Nat), posOf x l = some t →
      t < l.length ∧ l.getD t 0 = x := by
  intro l
  induction l with
  | nil => intro t h; simp [posOf] at h
  | cons y ys ih =>
      intro t h
      simp only [posOf] at h
      by_cases hy : y = x
      · rw [if_pos hy] at h
        cases h
        simp [hy]
      · rw [if_neg hy] at h
        rcases Option.map_eq_some'.mp h with ⟨u, hu, rfl⟩
        rcases ih u hu with ⟨h1, h2⟩
        constructor
        · simp; omega
        · simpa using h2

/-- posOf is some exactly on members. -/
theorem posOf_isSome_iff (x : Nat) :
    ∀ l : List Nat, (posOf x l).isSome = true ↔ x ∈ l := by
  intro l
  induction l with
  | nil => simp [posOf]
  | cons y ys ih =>
      simp only [posOf, List.mem_cons]
      by_cases hy : y = x
      · simp [hy]
      · rw [if_neg hy]
        constructor
        · intro h
          right
          rw [← ih]
          rcases Option.isSome_iff_exists.mp h with ⟨u, hu⟩
          rcases Option.map_eq_some'.mp hu with ⟨v, hv, _⟩
          simp [hv]
        · intro h
          rcases h with h | h
          · exact absurd h.symm hy
          · rcases Option.isSome_iff_exists.mp (ih.mpr h) with ⟨u, hu⟩
            simp [hu]

/-- On a duplicate-free list, the position of the element at index t is t. -/
theorem posOf_getD :
    ∀ (l : List Nat), l.Nodup → ∀ t, t < l.length →
      posOf (l.getD t 0) l = some t := by
  intro l
  induction l with
  | nil => intro _ t ht; simp at ht
  | cons y ys ih =>
      intro hnd t ht
      match t with
      | 0 => simp [posOf]
      | t + 1 =>
          have hys : ys.Nodup := (List.nodup_cons.mp hnd).2
          have hy : y ∉ ys := (List.nodup_cons.mp hnd).1
          have htl : t < ys.length := by simpa using ht
          have hmem : ys.getD t 0 ∈ ys := getD_mem_of_lt ys 0 t htl
          have hne : y ≠ ys.getD t 0 := fun h => hy (h ▸ hmem)
          simp only [List.getD_cons_succ, posOf, if_neg hne, ih hys t htl,
            Option.map_some']

/-- posOf looks in the left part first. -/
theorem posOf_append_left (x : Nat) :
    ∀ l l' : List Nat, x ∈ l → posOf x (l ++ l') = posOf x l := by
  intro l
  induction l with
  | nil => intro l' h; simp at h
  | cons y ys ih =>
      intro l' h
      simp only [List.cons_append, posOf, List.append_eq]
      by_cases hy : y = x
      · simp [hy]
      · rw [if_neg hy, if_neg hy, ih]
        rcases List.mem_cons.mp h with h | h
        · exact absurd h.symm hy
        · exact h

/-- posOf skips a left part without the element. -/
theorem posOf_append_right (x : Nat) :
    ∀ l l' : List Nat, x ∉ l →
      posOf x (l ++ l') = (posOf x l').map (fun t => t + l.length) := by
  intro l
  induction l with
  | nil => intro l' _; simp
  | cons y ys ih =>
      intro l' h
      have hy : y ≠ x := fun hh => h (by simp [hh])
      have hys : x ∉ ys := fun hh => h (by simp [hh])
      simp only [List.cons_append, posOf, List.append_eq, if_neg hy, ih l' hys]
      cases posOf x l' with
      | none => simp
      | some t =>
          simp only [Option.map_some', List.length_cons]
          congr 1

/-- posOf of a non-member is none. -/
theorem posOf_eq_none (x : Nat) (l : List Nat) (h : x ∉ l) :
    posOf x l = none := by
  by_contra hne
  rcases Option.ne_none_iff_exists'.mp hne with ⟨t, ht⟩
  exact h ((posOf_isSome_iff x l).mp (by simp [ht]))

/-- getD after an in-bounds set at the same index. -/
theorem getD_set_self2 {β : Type} (l : List β) (n : Nat) (w d : β)
    (h : n < l.length) : (l.set n w).getD n d = w := by
  rw [List.getD_eq_getElem?_getD, List.getElem?_set_self (by omega)]
  simp

/-- getD after a set at a different index. -/
theorem getD_set_other2 {β : Type} (l : List β) (m n : Nat) (w d : β)
    (h : m ≠ n) : (l.set m w).getD n d = l.getD n d := by
  rw [List.getD_eq_getElem?_getD, List.getElem?_set_ne h,
    ← List.getD_eq_getElem?_getD]

/-- getD into the left part of an append. -/
theorem getD_append_l {β : Type} (l l' : List β) (n : Nat) (d : β)
    (h : n < l.length) : (l ++ l').getD n d = l.getD n d := by
  rw [List.getD_eq_getElem?_getD, List.getElem?_append, if_pos h,
    ← List.getD_eq_getElem?_getD]

/-- getD into the right part of an append. -/
theorem getD_append_r {β : Type} (l l' : List β) (n : Nat) (d : β)
    (h : l.length ≤ n) : (l ++ l').getD n d = l'.getD (n - l.length) d := by
  rw [List.getD_eq_getElem?_getD, List.getElem?_append, if_neg (by omega),
    ← List.getD_eq_getElem?_getD]

/-- getD through map at an in-bounds index. -/
theorem getD_map_of_lt {β γ : Type} (f : β → γ) (l : List β) (n : Nat)
    (d : γ) (e : β) (h : n < l.length) :
    (l.map f).getD n d = f (l.getD n e) := by
  rw [List.getD_eq_getElem?_getD, List.getElem?_map,
    List.getElem?_eq_getElem h, List.getD_eq_getElem?_getD,
    List.getElem?_eq_getElem h]
  simp

/-- getD through drop. -/
theorem getD_drop2 {β : Type} (l : List β) (i j : Nat) (d : β) :
    (l.drop i).getD j d = l.getD (i + j) d := by
  rw [List.getD_eq_getElem?_getD, List.getElem?_drop,
    ← List.getD_eq_getElem?_getD]

/-- getD through take at an index below the cut. -/
theorem getD_take2 {β : Type} :
    ∀ (l : List β) (i j : Nat) (d : β), j < i →
      (l.take i).getD j d = l.getD j d := by
  intro l
  induction l with
  | nil => intro i j d h; simp
  | cons x xs ih =>
      intro i j d h
      match i, j with
      | i + 1, 0 => simp
      | i + 1, j + 1 =>
          simp only [List.take_succ_cons, List.getD_cons_succ]
          exact ih i j d (by omega)

/-- Dropping below the length of the left part distributes over append. -/
theorem drop_append_le {β : Type} :
    ∀ (l : List β) (l' : List β) (n : Nat), n ≤ l.length →
      (l ++ l').drop n = l.drop n ++ l' := by
  intro l
  induction l with
  | nil =>
      intro l' n h
      have : n = 0 := by simpa using h
      simp [this]
  | cons x xs ih =>
      intro l' n h
      match n with
      | 0 => simp
      | n + 1 =>
          simp only [List.cons_append, List.drop_succ_cons]
          exact ih l' n (by simpa using h)

/-- Taking below the length of the left part ignores the right part. -/
theorem take_append_le {β : Type} :
    ∀ (l : List β) (l' : List β) (n : Nat), n ≤ l.length →
      (l ++ l').take n = l.take n := by
  intro l
  induction l with
  | nil =>
      intro l' n h
      have : n = 0 := by simpa using h
      simp [this]
  | cons x xs ih =>
      intro l' n h
      match n with
      | 0 => simp
      | n + 1 =>
          simp only [List.cons_append, List.take_succ_cons]
          rw [ih l' n (by simpa using h)]

/-- Taking one more element appends the element at the cut. -/
theorem take_succ_getD {β : Type} :
    ∀ (l : List β) (n : Nat) (d : β), n < l.length →
      l.take (n + 1) = l.take n ++ [l.getD n d] := by
  intro l
  induction l with
  | nil => intro n d h; simp at h
  | cons x xs ih =>
      intro n d h
      match n with
      | 0 => simp
      | n + 1 =>
          simp only [List.take_succ_cons, List.getD_cons_succ, List.cons_append]
          rw [ih n d (by simpa using h)]

/-- Dropping at an in-bounds index exposes the element there. -/
theorem drop_getD_cons {β : Type} :
    ∀ (l : List β) (n : Nat) (d : β), n < l.length →
      l.drop n = l.getD n d :: l.drop (n + 1) := by
  intro l
  induction l with
  | nil => intro n d h; simp at h
  | cons x xs ih =>
      intro n d h
      match n with
      | 0 => simp
      | n + 1 =>
          simp only [List.drop_succ_cons, List.getD_cons_succ]
          exact ih n d (by simpa using h)

/-- flatMap distributes over append. -/
theorem flatMap_append2 {β γ : Type} (f : β → List γ) :
    ∀ l l' : List β, (l ++ l').flatMap f = l.flatMap f ++ l'.flatMap f := by
  intro l
  induction l with
  | nil => simp
  | cons x xs ih => intro l'; simp [List.flatMap_cons, ih, List.append_assoc]

/-- A duplicate-free list of naturals below n has at most n elements. -/
theorem nodup_lt_length_le (l : List Nat) (n : Nat) (hnd : l.Nodup)
    (h : ∀ x ∈ l, x < n) : l.length ≤ n := by
  have hsub : l ⊆ List.range n := fun x hx => List.mem_range.mpr (h x hx)
  have := List.Subperm.length_le (List.subperm_of_subset hnd hsub)
  simpa using this

/-- Membership gives an in-bounds getD index. -/
theorem mem_iff_getD {β : Type} (l : List β) (x : β) (d : β) :
    x ∈ l ↔ ∃ t, t < l.length ∧ l.getD t d = x := by
  constructor
  · intro h
    rcases List.mem_iff_getElem.mp h with ⟨t, ht, hx⟩
    refine ⟨t, ht, ?_⟩
    rw [List.getD_eq_getElem?_getD, List.getElem?_eq_getElem ht]
    simpa using hx
  · rintro ⟨t, ht, rfl⟩
    exact getD_mem_of_lt l d t ht

/-- The new-node vector built by abAppendKids: the copies of the children,
parent rewritten, appended in order. -/
theorem abAppendKids_fst {α : Type} [Inhabited α] (old : List (ANode α))
    (curNew : Nat) :
    ∀ (cs : List Nat) (nw : List (ANode α)) (m : List (Option Nat)) (q : List Nat),
      (abAppendKids old curNew cs nw m q).1
        = nw ++ cs.map (fun c =>
            { old.getD c defaultNode with parentIdx := some curNew }) := by
  intro cs
  induction cs with
  | nil => intro nw m q; simp [abAppendKids]
  | cons c cs ih =>
      intro nw m q
      simp only [abAppendKids, ih, List.map_cons]
      simp

/-- The queue built by abAppendKids: the children appended in order. -/
theorem abAppendKids_queue {α : Type} [Inhabited α] (old : List (ANode α))
    (curNew : Nat) :
    ∀ (cs : List Nat) (nw : List (ANode α)) (m : List (Option Nat)) (q : List Nat),
      (abAppendKids old curNew cs nw m q).2.2 = q ++ cs := by
  intro cs
  induction cs with
  | nil => intro nw m q; simp [abAppendKids]
  | cons c cs ih =>
      intro nw m q
      simp only [abAppendKids, ih]
      simp

/-- abAppendKids preserves the mapping vector's length. -/
theorem abAppendKids_mlen {α : Type} [Inhabited α] (old : List (ANode α))
    (curNew : Nat) :
    ∀ (cs : List Nat) (nw : List (ANode α)) (m : List (Option Nat)) (q : List Nat),
      (abAppendKids old curNew cs nw m q).2.1.length = m.length := by
  intro cs
  induction cs with
  | nil => intro nw m q; simp [abAppendKids]
  | cons c cs ih =>
      intro nw m q
      simp only [abAppendKids, ih]
      simp

/-- abAppendKids changes the mapping only at the children. -/
theorem abAppendKids_m_other {α : Type} [Inhabited α] (old : List (ANode α))
    (curNew : Nat) :
    ∀ (cs : List Nat) (nw : List (ANode α)) (m : List (Option Nat)) (q : List Nat)
      (i : Nat), i ∉ cs →
      (abAppendKids old curNew cs nw m q).2.1.getD i none = m.getD i none := by
  intro cs
  induction cs with
  | nil => intro nw m q i _; simp [abAppendKids]
  | cons c cs ih =>
      intro nw m q i hi
      have hic : c ≠ i := fun h => hi (by simp [h])
      have hics : i ∉ cs := fun h => hi (by simp [h])
      simp only [abAppendKids, ih _ _ _ _ hics]
      exact getD_set_other2 m c i _ none hic

/-- abAppendKids maps the t-th child to position nw.length + t. -/
theorem abAppendKids_m_pos {α : Type} [Inhabited α] (old : List (ANode α))
    (curNew : Nat) :
    ∀ (cs : List Nat) (nw : List (ANode α)) (m : List (Option Nat)) (q : List Nat),
      cs.Nodup → (∀ c ∈ cs, c < m.length) →
      ∀ t, t < cs.length →
        (abAppendKids old curNew cs nw m q).2.1.getD (cs.getD t 0) none
          = some (nw.length + t) := by
  intro cs
  induction cs with
  | nil => intro nw m q _ _ t ht; simp at ht
  | cons c cs ih =>
      intro nw m q hnd hlt t ht
      match t with
      | 0 =>
          have hc : c ∉ cs := (List.nodup_cons.mp hnd).1
          simp only [abAppendKids, List.getD_cons_zero]
          rw [abAppendKids_m_other old curNew cs _ _ _ c hc]
          rw [getD_set_self2 m c _ none (hlt c (by simp))]
          simp
      | t + 1 =>
          simp only [abAppendKids, List.getD_cons_succ]
          rw [ih _ _ _ (List.nodup_cons.mp hnd).2
            (fun x hx => by rw [List.length_set]; exact hlt x (by simp [hx]))
            t (by simpa using ht)]
          simp only [List.length_append, List.length_cons, List.length_nil]
          congr 1
          omega

/-- blockStart is monotone in the position. -/
theorem blockStart_mono {α : Type} [Inhabited α] (old : List (ANode α))
    (app : List Nat) (t1 t2 : Nat) (h : t1 ≤ t2) :
    blockStart old app t1 ≤ blockStart old app t2 := by
  simp only [blockStart]
  have : app.take t2 = app.take t1 ++ (app.drop t1).take (t2 - t1) := by
    rw [← List.take_add]
    congr 1
    omega
  rw [this, flatMap_append2]
  simp

/-- blockStart only depends on the prefix before the position. -/
theorem blockStart_take_eq {α : Type} [Inhabited α] (old : List (ANode α))
    (app ext : List Nat) (t : Nat) (h : t ≤ app.length) :
    blockStart old (app ++ ext) t = blockStart old app t := by
  simp only [blockStart]
  rw [take_append_le app ext t h]

/-- Invariant of the BFS re-layout loop.  app lists the old indices appended
to the new vector in order (the queue is app.drop done); nw is the new vector
built so far, m the old-to-new map.  Processed positions with children carry
their final first-child/child-count links; everything else still carries the
copied (or, for the root, reset) links. -/
structure RelayInv {α : Type} [Inhabited α] (old : List (ANode α)) (root : Nat)
    (nw : List (ANode α)) (m : List (Option Nat)) (app : List Nat)
    (done : Nat) : Prop where
  hlen : nw.length = app.length
  hmlen : m.length = old.length
  hdone : done ≤ app.length
  hne : 0 < app.length
  hhead : app.getD 0 0 = root
  hnd : app.Nodup
  hmem : ∀ x ∈ app, x < old.length ∧ (old.getD x defaultNode).valid = true
  hflat : app.drop 1 = (app.take done).flatMap (childrenOf old)
  hpos : ∀ t, t < app.length → t < blockStart old app t
  hm : ∀ i, m.getD i none = posOf i app
  hdata : ∀ t, t < app.length →
    (nw.getD t defaultNode).data = (old.getD (app.getD t 0) defaultNode).data ∧
      (nw.getD t defaultNode).valid = true
  hpar0 : (nw.getD 0 defaultNode).parentIdx = none
  hpar : ∀ t, 0 < t → t < app.length →
    ∃ p, (old.getD (app.getD t 0) defaultNode).parentIdx = some p ∧ p ∈ app ∧
      (nw.getD t defaultNode).parentIdx = posOf p app
  hproc : ∀ t, t < done → childrenOf old (app.getD t 0) ≠ [] →
    (nw.getD t defaultNode).firstChildIdx = some (blockStart old app t) ∧
      (nw.getD t defaultNode).childCount
        = (childrenOf old (app.getD t 0)).length
  hraw : ∀ t, t < app.length →
    (done ≤ t ∨ childrenOf old (app.getD t 0) = []) →
    (t = 0 → (nw.getD t defaultNode).firstChildIdx = none ∧
      (nw.getD t defaultNode).childCount = 0) ∧
    (0 < t → (nw.getD t defaultNode).firstChildIdx
        = (old.getD (app.getD t 0) defaultNode).firstChildIdx ∧
      (nw.getD t defaultNode).childCount
        = (old.getD (app.getD t 0) defaultNode).childCount)

/-- Short name for the whole-list flatMap length identity from hflat. -/
theorem RelayInv.lenEq {α : Type} [Inhabited α] {old : List (ANode α)}
    {root : Nat} {nw : List (ANode α)} {m : List (Option Nat)} {app : List Nat}
    {done : Nat} (hI : RelayInv old root nw m app done) :
    app.length = 1 + ((app.take done).flatMap (childrenOf old)).length := by
  have := congrArg List.length hI.hflat
  simp only [List.length_drop] at this
  have := hI.hne
  omega

/-- A member of app sits at the position posOf reports, below app.length. -/
theorem RelayInv.posOf_mem {α : Type} [Inhabited α] {old : List (ANode α)}
    {root : Nat} {nw : List (ANode α)} {m : List (Option Nat)} {app : List Nat}
    {done : Nat} (hI : RelayInv old root nw m app done) {x : Nat}
    (hx : x ∈ app) :
    ∃ t, posOf x app = some t ∧ t < app.length ∧ app.getD t 0 = x := by
  have h1 := (posOf_isSome_iff x app).mpr hx
  rcases Option.isSome_iff_exists.mp h1 with ⟨t, ht⟩
  rcases posOf_eq_some x app t ht with ⟨h2, h3⟩
  exact ⟨t, ht, h2, h3⟩

/-- Advancing past a childless queue head preserves the invariant. -/
theorem relayInv_step_leaf {α : Type} [Inhabited α] {old : List (ANode α)}
    {root : Nat} {nw : List (ANode α)} {m : List (Option Nat)} {app : List Nat}
    {done : Nat} (hI : RelayInv old root nw m app done)
    (hd : done < app.length)
    (hcs : childrenOf old (app.getD done 0) = []) :
    RelayInv old root nw m app (done + 1) := by
  have htake : app.take (done + 1) = app.take done ++ [app.getD done 0] :=
    take_succ_getD app done 0 hd
  refine ⟨hI.hlen, hI.hmlen, hd, hI.hne, hI.hhead, hI.hnd, hI.hmem, ?_,
    hI.hpos, hI.hm, hI.hdata, hI.hpar0, hI.hpar, ?_, ?_⟩
  · rw [htake, flatMap_append2]
    rw [show ([app.getD done 0].flatMap (childrenOf old)) = [] from by
      simp only [List.flatMap_cons, List.flatMap_nil, List.append_nil, hcs]]
    rw [List.append_nil, hI.hflat]
  · intro t ht hne
    rcases Nat.lt_or_ge t done with h | h
    · exact hI.hproc t h hne
    · have : t = done := by omega
      subst this
      exact absurd hcs hne
  · intro t ht hcase
    refine hI.hraw t ht ?_
    rcases hcase with h | h
    · exact Or.inl (by omega)
    · exact Or.inr h

/-- Processing a queue head with children preserves the invariant: the head's
copy gets its final links, the children are appended (copies with rewritten
parents), the map records their positions, and app grows by the children. -/
theorem relayInv_step_kids {α : Type} [Inhabited α] {old : List (ANode α)}
    {root : Nat} {nw : List (ANode α)} {m : List (Option Nat)} {app : List Nat}
    {done : Nat} (hI : RelayInv old root nw m app done)
    (hrootPar : (old.getD root defaultNode).parentIdx = none)
    (hd : done < app.length)
    (hcs : ¬ childrenOf old (app.getD done 0) = []) :
    RelayInv old root
      (abAppendKids old done (childrenOf old (app.getD done 0))
        (nw.set done
          { nw.getD done defaultNode with
            firstChildIdx := some nw.length,
            childCount := (childrenOf old (app.getD done 0)).length })
        m (app.drop (done + 1))).1
      (abAppendKids old done (childrenOf old (app.getD done 0))
        (nw.set done
          { nw.getD done defaultNode with
            firstChildIdx := some nw.length,
            childCount := (childrenOf old (app.getD done 0)).length })
        m (app.drop (done + 1))).2.1
      (app ++ childrenOf old (app.getD done 0)) (done + 1) := by
  set cur := app.getD done 0 with hcurdef
  set cs := childrenOf old cur with hcsdef
  set nw1 := nw.set done
    { nw.getD done defaultNode with
      firstChildIdx := some nw.length, childCount := cs.length } with hnw1def
  have hmemcs : ∀ c ∈ cs, c < old.length ∧
      (old.getD c defaultNode).valid = true ∧
      (old.getD c defaultNode).parentIdx = some cur :=
    fun c hc => (mem_childrenOf old cur c).mp hc
  have hndcs : cs.Nodup := childrenOf_nodup old cur
  have hcur_mem : cur ∈ app := getD_mem_of_lt app 0 done hd
  have h1le : (1 : Nat) ≤ app.length := hI.hne
  have hnwlen : nw.length = app.length := hI.hlen
  have hnw1len : nw1.length = app.length := by
    rw [hnw1def, List.length_set, hnwlen]
  have hposcur : posOf cur app = some done := by
    rw [hcurdef]
    exact posOf_getD app hI.hnd done hd
  have hdisj : ∀ c ∈ cs, c ∉ app := by
    intro c hc hmemapp
    have hpc : (old.getD c defaultNode).parentIdx = some cur := (hmemcs c hc).2.2
    rcases hI.posOf_mem hmemapp with ⟨u, hu1, hu2, hu3⟩
    match u with
    | 0 =>
        have hcroot : c = root := by rw [← hu3, hI.hhead]
        rw [hcroot, hrootPar] at hpc
        exact Option.noConfusion hpc
    | u + 1 =>
        have hlen1 : u < (app.drop 1).length := by
          rw [List.length_drop]
          omega
        have hcflat : c ∈ (app.take done).flatMap (childrenOf old) := by
          rw [← hI.hflat]
          have : (app.drop 1).getD u 0 = c := by
            rw [getD_drop2]
            rw [show 1 + u = u + 1 from by omega, hu3]
          rw [← this]
          exact getD_mem_of_lt _ 0 u hlen1
        rcases List.mem_flatMap.mp hcflat with ⟨v, hv1, hv2⟩
        have hpv : (old.getD c defaultNode).parentIdx = some v :=
          ((mem_childrenOf old v c).mp hv2).2.2
        have hvcur : v = cur := by
          rw [hpv] at hpc
          exact Option.some_injective _ hpc
        rcases (mem_iff_getD (app.take done) v 0).mp hv1 with ⟨w, hw1, hw2⟩
        have hwlen : w < done := by
          have := List.length_take_le done app
          have h2 : (app.take done).length = min done app.length :=
            List.length_take done app
          omega
        have happw : app.getD w 0 = cur := by
          rw [← hvcur, ← hw2, getD_take2 app done w 0 hwlen]
        have : posOf cur app = some w := by
          rw [← happw]
          exact posOf_getD app hI.hnd w (by omega)
        rw [hposcur] at this
        have : w = done := by
          have := Option.some_injective _ this
          omega
        omega
  have hcsn : ∀ c ∈ cs, c < m.length := by
    intro c hc
    rw [hI.hmlen]
    exact (hmemcs c hc).1
  have hfst : (abAppendKids old done cs nw1 m (app.drop (done + 1))).1
      = nw1 ++ cs.map (fun c =>
          { old.getD c defaultNode with parentIdx := some done }) :=
    abAppendKids_fst old done cs nw1 m _
  have hmoth : ∀ i, i ∉ cs →
      (abAppendKids old done cs nw1 m (app.drop (done + 1))).2.1.getD i none
        = m.getD i none :=
    fun i hi => abAppendKids_m_other old done cs nw1 m _ i hi
  have hmpos : ∀ t, t < cs.length →
      (abAppendKids old done cs nw1 m (app.drop (done + 1))).2.1.getD
          (cs.getD t 0) none = some (nw1.length + t) :=
    fun t ht => abAppendKids_m_pos old done cs nw1 m _ hndcs hcsn t ht
  have hgetapp : ∀ t, t < app.length → (app ++ cs).getD t 0 = app.getD t 0 :=
    fun t ht => getD_append_l app cs t 0 ht
  have hgetcs : ∀ t, app.length ≤ t → (app ++ cs).getD t 0
      = cs.getD (t - app.length) 0 :=
    fun t ht => getD_append_r app cs t 0 ht
  have hBdone : blockStart old app done = app.length := by
    rw [blockStart]
    exact hI.lenEq.symm
  have hnw2get_low : ∀ t, t < app.length → t ≠ done →
      (abAppendKids old done cs nw1 m (app.drop (done + 1))).1.getD t defaultNode
        = nw.getD t defaultNode := by
    intro t ht hne
    rw [hfst, getD_append_l _ _ t _ (by omega), hnw1def,
      getD_set_other2 _ _ _ _ _ (fun h => hne h.symm)]
  have hnw2get_done :
      (abAppendKids old done cs nw1 m (app.drop (done + 1))).1.getD done
          defaultNode
        = { nw.getD done defaultNode with
            firstChildIdx := some nw.length, childCount := cs.length } := by
    rw [hfst, getD_append_l _ _ done _ (by omega), hnw1def,
      getD_set_self2 _ _ _ _ (by omega)]
  have hnw2get_high : ∀ t, app.length ≤ t → t < app.length + cs.length →
      (abAppendKids old done cs nw1 m (app.drop (done + 1))).1.getD t defaultNode
        = { old.getD (cs.getD (t - app.length) 0) defaultNode with
            parentIdx := some done } := by
    intro t ht1 ht2
    rw [hfst, getD_append_r _ _ t _ (by omega), hnw1len,
      getD_map_of_lt _ _ _ _ 0 (by omega)]
  have htake1 : ∀ t, t ≤ app.length → (app ++ cs).take t = app.take t :=
    fun t ht => take_append_le app cs t ht
  have hflat2 : (app ++ cs).drop 1 = (app.take done).flatMap (childrenOf old)
      ++ cs := by
    rw [drop_append_le app cs 1 h1le, hI.hflat]
  refine ⟨?_, ?_, ?_, ?_, ?_, ?_, ?_, ?_, ?_, ?_, ?_, ?_, ?_, ?_, ?_⟩
  · rw [hfst]
    simp [hnw1len]
  · rw [abAppendKids_mlen]
    exact hI.hmlen
  · simp
    omega
  · simp
    omega
  · rw [hgetapp 0 (by omega), hI.hhead]
  · rw [List.nodup_append]
    exact ⟨hI.hnd, hndcs, fun a ha hacs => hdisj a hacs ha⟩
  · intro x hx
    rcases List.mem_append.mp hx with h | h
    · exact hI.hmem x h
    · exact ⟨(hmemcs x h).1, (hmemcs x h).2.1⟩
  · rw [hflat2, htake1 (done + 1) (by omega), take_succ_getD app done 0 hd,
      flatMap_append2]
    congr 1
    simp only [List.flatMap_cons, List.flatMap_nil, List.append_nil]
  · intro t ht
    simp only [List.length_append] at ht
    rcases Nat.lt_or_ge t app.length with hta | hta
    · rw [blockStart_take_eq old app cs t (by omega)]
      exact hI.hpos t hta
    · have h1 : blockStart old (app ++ cs) (done + 1)
          = app.length + cs.length := by
        rw [blockStart, htake1 (done + 1) (by omega),
          take_succ_getD app done 0 hd, flatMap_append2]
        simp only [List.length_append]
        have hx : [app.getD done 0].flatMap (childrenOf old) = cs := by
          simp only [List.flatMap_cons, List.flatMap_nil, List.append_nil]
        rw [hx]
        have := hI.lenEq
        omega
      have h2 := blockStart_mono old (app ++ cs) (done + 1) t (by omega)
      omega
  · intro i
    by_cases hics : i ∈ cs
    · rcases (mem_iff_getD cs i 0).mp hics with ⟨t, ht, rfl⟩
      rw [hmpos t ht, posOf_append_right _ _ _ (hdisj _ hics),
        posOf_getD cs hndcs t ht]
      simp only [Option.map_some']
      congr 1
      omega
    · rw [hmoth i hics, hI.hm]
      by_cases hia : i ∈ app
      · rw [posOf_append_left i app cs hia]
      · rw [posOf_eq_none i app hia, posOf_append_right i app cs hia,
          posOf_eq_none i cs hics]
        simp
  · intro t ht
    simp only [List.length_append] at ht
    rcases Nat.lt_or_ge t app.length with hta | hta
    · rw [hgetapp t hta]
      by_cases hdt : t = done
      · subst hdt
        rw [hnw2get_done]
        exact hI.hdata t hta
      · rw [hnw2get_low t hta hdt]
        exact hI.hdata t hta
    · rw [hgetcs t hta, hnw2get_high t hta (by omega)]
      constructor
      · rfl
      · exact (hmemcs _ (getD_mem_of_lt cs 0 _ (by omega))).2.1
  · by_cases hd0 : done = 0
    · subst hd0
      rw [hnw2get_done]
      exact hI.hpar0
    · rw [hnw2get_low 0 (by omega) (fun h => hd0 h.symm)]
      exact hI.hpar0
  · intro t ht0 ht
    simp only [List.length_append] at ht
    rcases Nat.lt_or_ge t app.length with hta | hta
    · rcases hI.hpar t ht0 hta with ⟨p, hp1, hp2, hp3⟩
      refine ⟨p, ?_, List.mem_append_left cs hp2, ?_⟩
      · rw [hgetapp t hta]
        exact hp1
      · rw [posOf_append_left p app cs hp2, ← hp3]
        by_cases hdt : t = done
        · subst hdt
          rw [hnw2get_done]
        · rw [hnw2get_low t hta hdt]
    · refine ⟨cur, ?_, List.mem_append_left cs hcur_mem, ?_⟩
      · rw [hgetcs t hta]
        exact (hmemcs _ (getD_mem_of_lt cs 0 _ (by omega))).2.2
      · rw [posOf_append_left cur app cs hcur_mem, hposcur,
          hnw2get_high t hta (by omega)]
  · intro t ht hnecs
    rcases Nat.lt_or_ge t done with htd | htd
    · rw [hgetapp t (by omega)] at hnecs
      have hold := hI.hproc t htd hnecs
      rw [hnw2get_low t (by omega) (by omega),
        blockStart_take_eq old app cs t (by omega), hgetapp t (by omega)]
      exact hold
    · have htdone : t = done := by omega
      subst htdone
      rw [hnw2get_done, blockStart_take_eq old app cs t (by omega), hBdone,
        hgetapp t hd]
      exact ⟨by rw [hnwlen], rfl⟩
  · intro t ht hcase
    simp only [List.length_append] at ht
    rcases Nat.lt_or_ge t app.length with hta | hta
    · have hdt : t ≠ done := by
        intro h
        subst h
        rcases hcase with h | h
        · omega
        · rw [hgetapp t hd] at h
          exact hcs h
      rw [hgetapp t hta] at hcase ⊢
      rw [hnw2get_low t hta hdt]
      refine hI.hraw t hta ?_
      rcases hcase with h | h
      · exact Or.inl (by omega)
      · exact Or.inr h
    · rw [hgetcs t hta, hnw2get_high t hta (by omega)]
      exact ⟨fun h => absurd h (by omega), fun _ => ⟨rfl, rfl⟩⟩

/-- Running the BFS loop from any invariant state succeeds (with fuel at
least the number of old slots still processable) and ends in an invariant
state whose app extends the current one and is fully processed. -/
theorem relayLoop_spec {α : Type} [Inhabited α] (old : List (ANode α))
    (root : Nat) (hrootPar : (old.getD root defaultNode).parentIdx = none) :
    ∀ (fuel : Nat) (nw : List (ANode α)) (m : List (Option Nat))
      (app : List Nat) (done : Nat),
      RelayInv old root nw m app done →
      old.length - done ≤ fuel →
      ∃ app2 nw2 m2,
        relayLoop old fuel nw m (app.drop done) = some (nw2, m2) ∧
        RelayInv old root nw2 m2 app2 app2.length ∧
        ∃ ext, app2 = app ++ ext := by
  intro fuel
  induction fuel with
  | zero =>
      intro nw m app done hI hf
      have hlenle : app.length ≤ old.length :=
        nodup_lt_length_le app old.length hI.hnd fun x hx => (hI.hmem x hx).1
      have hdone : done = app.length := by
        have := hI.hdone
        omega
      have hnil : app.drop done = [] := by
        rw [hdone]
        exact List.drop_length app
      rw [hnil]
      exact ⟨app, nw, m, rfl, hdone ▸ hI, [], by simp⟩
  | succ fuel ih =>
      intro nw m app done hI hf
      rcases Nat.lt_or_ge done app.length with hd | hd
      · have hq : app.drop done = app.getD done 0 :: app.drop (done + 1) :=
          drop_getD_cons app done 0 hd
        have hmcur : m.getD (app.getD done 0) none = some done := by
          rw [hI.hm]
          exact posOf_getD app hI.hnd done hd
        rw [hq]
        simp only [relayLoop, hmcur]
        by_cases hcs : (childrenOf old (app.getD done 0)).isEmpty
        · rw [if_pos hcs]
          have hcsnil : childrenOf old (app.getD done 0) = [] := by
            simpa using hcs
          have hI2 := relayInv_step_leaf hI hd hcsnil
          exact ih nw m app (done + 1) hI2 (by omega)
        · rw [if_neg hcs]
          have hcsnil : ¬ childrenOf old (app.getD done 0) = [] := by
            simpa using hcs
          have hlt : done < nw.length := by
            rw [hI.hlen]
            exact hd
          rw [if_pos hlt]
          have hI2 := relayInv_step_kids hI hrootPar hd hcsnil
          have hqueue : (abAppendKids old done (childrenOf old (app.getD done 0))
              (nw.set done
                { nw.getD done defaultNode with
                  firstChildIdx := some nw.length,
                  childCount := (childrenOf old (app.getD done 0)).length })
              m (app.drop (done + 1))).2.2
              = (app ++ childrenOf old (app.getD done 0)).drop (done + 1) := by
            rw [abAppendKids_queue,
              drop_append_le app (childrenOf old (app.getD done 0)) (done + 1)
                (by omega)]
          rcases ih _ _ (app ++ childrenOf old (app.getD done 0)) (done + 1)
            hI2 (by omega) with ⟨app2, nw2, m2, hrun, hI3, ext, hext⟩
          refine ⟨app2, nw2, m2, ?_, hI3, childrenOf old (app.getD done 0) ++ ext,
            by rw [hext, List.append_assoc]⟩
          rw [hqueue]
          exact hrun
      · have hdone : done = app.length := by
          have := hI.hdone
          omega
        have hnil : app.drop done = [] := by
          rw [hdone]
          exact List.drop_length app
        rw [hnil]
        exact ⟨app, nw, m, rfl, hdone ▸ hI, [], by simp⟩

/-- Every node whose parent chain reaches the root lies in a child-closed
enumeration containing the root. -/
theorem chase_mem_app {α : Type} [Inhabited α] (old : List (ANode α))
    (root : Nat) (app : List Nat) (hroot_mem : root ∈ app)
    (hclosed : ∀ x ∈ app, ∀ c ∈ childrenOf old x, c ∈ app) :
    ∀ fuel i, chaseAux old root fuel i = true → i < old.length →
      (old.getD i defaultNode).valid = true → i ∈ app := by
  intro fuel
  induction fuel with
  | zero =>
      intro i h _ _
      simp only [chaseAux, decide_eq_true_eq] at h
      exact h ▸ hroot_mem
  | succ fuel ih =>
      intro i h hi hv
      by_cases hir : i = root
      · exact hir ▸ hroot_mem
      · simp only [chaseAux, if_neg hir] at h
        cases hp : (old.getD i defaultNode).parentIdx with
        | none => rw [hp] at h; simp at h
        | some p =>
            rw [hp] at h
            simp only [Bool.and_eq_true, decide_eq_true_eq] at h
            obtain ⟨⟨hp1, hp2⟩, hp3⟩ := h
            have hpmem := ih p hp3 hp1 hp2
            exact hclosed p hpmem i ((mem_childrenOf old p i).mpr ⟨hi, hv, hp⟩)

/-- Master theorem for rebalance_for_locality on a well-formed store: it
succeeds, and the resulting vector is described by a fully processed BFS
invariant whose enumeration contains every valid old node. -/
theorem rebalance_master {α : Type} [Inhabited α] (s : FTree α)
    (h : WfFocused s) :
    ∃ app nw2 m2,
      rebalance_for_locality s = some ⟨nw2, 0, s.treeSize, 0⟩ ∧
      RelayInv s.nodes s.rootIdx nw2 m2 app app.length ∧
      (∀ i, i < s.nodes.length → (s.nodes.getD i defaultNode).valid = true →
        i ∈ app) := by
  obtain ⟨hroot, hrvalid, hrpar, hchase, hleaf⟩ := h
  have hnne : ¬ s.nodes.isEmpty = true := by
    simp only [List.isEmpty_iff]
    intro hcon
    rw [hcon] at hroot
    simp at hroot
  have hI0 : RelayInv s.nodes s.rootIdx
      [{ s.nodes.getD s.rootIdx defaultNode with
          parentIdx := none, firstChildIdx := none, childCount := 0 }]
      ((List.replicate s.nodes.length (none : Option Nat)).set s.rootIdx (some 0))
      [s.rootIdx] 0 := by
    refine ⟨by simp, by simp, by simp, by simp, by simp, by simp, ?_, by simp,
      ?_, ?_, ?_, rfl, ?_, ?_, ?_⟩
    · intro x hx
      have : x = s.rootIdx := by simpa using hx
      subst this
      exact ⟨hroot, hrvalid⟩
    · intro t ht
      have : t = 0 := by simpa using ht
      subst this
      simp [blockStart]
    · intro i
      by_cases hir : i = s.rootIdx
      · subst hir
        rw [getD_set_self2 _ _ _ _ (by simpa using hroot)]
        simp [posOf]
      · rw [getD_set_other2 _ _ _ _ _ (fun hh => hir hh.symm)]
        have hrep : (List.replicate s.nodes.length (none : Option Nat)).getD i
            none = none := by
          rw [List.getD_eq_getElem?_getD, List.getElem?_replicate]
          split <;> rfl
        rw [hrep]
        simp only [posOf]
        rw [if_neg (fun hh => hir hh.symm)]
        simp [posOf]
    · intro t ht
      have : t = 0 := by simpa using ht
      subst this
      exact ⟨rfl, hrvalid⟩
    · intro t ht0 ht
      have : t = 0 := by simpa using ht
      omega
    · intro t ht _
      simp at ht
    · intro t ht _
      have : t = 0 := by simpa using ht
      subst this
      exact ⟨fun _ => ⟨rfl, rfl⟩, fun hh => absurd rfl (Nat.ne_of_gt hh)⟩
  rcases relayLoop_spec s.nodes s.rootIdx hrpar s.nodes.length _ _ [s.rootIdx] 0
    hI0 (by omega) with ⟨app, nw2, m2, hrun, hIF, ext, hext⟩
  rw [List.drop_zero] at hrun
  refine ⟨app, nw2, m2, ?_, hIF, ?_⟩
  · simp only [rebalance_for_locality]
    rw [if_neg hnne, if_pos hroot, hrun]
  · have hclosed : ∀ x ∈ app, ∀ c ∈ childrenOf s.nodes x, c ∈ app := by
      intro x hx c hc
      have hcf : c ∈ app.flatMap (childrenOf s.nodes) :=
        List.mem_flatMap.mpr ⟨x, hx, hc⟩
      have : c ∈ app.drop 1 := by
        have hfl := hIF.hflat
        rw [List.take_length] at hfl
        rw [hfl]
        exact hcf
      exact List.drop_subset _ _ this
    have hrmem : s.rootIdx ∈ app := by
      rw [hext]
      simp
    intro i hi hv
    exact chase_mem_app s.nodes s.rootIdx app hrmem hclosed s.nodes.length i
      (hchase i hi hv) hi hv

/-- getD into range' gives start plus offset. -/
theorem range'_getD : ∀ (b n r : Nat), r < n →
    (List.range' b n).getD r 0 = b + r := by
  intro b n
  induction n generalizing b with
  | zero => intro r hr; omega
  | succ n ih =>
      intro r hr
      match r with
      | 0 => simp [List.range'_succ]
      | r + 1 =>
          rw [List.range'_succ]
          simp only [List.getD_cons_succ]
          rw [ih (b + 1) r (by omega)]
          omega

/-- getD into range gives the index back. -/
theorem range_getD (n t : Nat) (h : t < n) : (List.range n).getD t 0 = t := by
  rw [List.getD_eq_getElem?_getD, List.getElem?_eq_getElem (by simpa using h)]
  simp

/-- Lists agreeing in length and pointwise getD are equal. -/
theorem ext_getD {β : Type} (d : β) :
    ∀ (l1 l2 : List β), l1.length = l2.length →
      (∀ r, r < l1.length → l1.getD r d = l2.getD r d) → l1 = l2 := by
  intro l1
  induction l1 with
  | nil =>
      intro l2 hlen _
      cases l2 with
      | nil => rfl
      | cons y ys => simp at hlen
  | cons x xs ih =>
      intro l2 hlen hpt
      cases l2 with
      | nil => simp at hlen
      | cons y ys =>
          have hx : x = y := by
            have := hpt 0 (by simp)
            simpa using this
          have : xs = ys := by
            refine ih ys (by simpa using hlen) ?_
            intro r hr
            have := hpt (r + 1) (by simpa using hr)
            simpa using this
          rw [hx, this]

/-- Adjacent ranges concatenate. -/
theorem range'_append_own : ∀ (a b c : Nat),
    List.range' a b ++ List.range' (a + b) c = List.range' a (b + c) := by
  intro a b
  induction b generalizing a with
  | zero => intro c; simp
  | succ b ih =>
      intro c
      rw [List.range'_succ]
      rw [show a + (b + 1) = (a + 1) + b from by omega]
      rw [show b + 1 + c = (b + c) + 1 from by omega, List.range'_succ]
      simp only [List.cons_append]
      rw [ih (a + 1) c]

/-- A filter over range that holds exactly on an interval yields that range
of positions. -/
theorem filter_range_interval (m a b : Nat) (p : Nat → Bool) (hab : a + b ≤ m)
    (h : ∀ u, u < m → (p u = true ↔ (a ≤ u ∧ u < a + b))) :
    (List.range m).filter p = List.range' a b := by
  have e1 : List.range' 0 a ++ List.range' a b = List.range' 0 (a + b) := by
    have := range'_append_own 0 a b
    simpa using this
  have e2 : List.range' 0 (a + b) ++ List.range' (a + b) (m - (a + b))
      = List.range' 0 m := by
    have := range'_append_own 0 (a + b) (m - (a + b))
    simp only [Nat.zero_add] at this
    rw [this, show a + b + (m - (a + b)) = m from by omega]
  have hsplit : List.range m
      = (List.range' 0 a ++ List.range' a b) ++ List.range' (a + b) (m - (a + b)) := by
    rw [e1, e2]
    exact List.range_eq_range' m
  rw [hsplit, List.filter_append, List.filter_append]
  have h1 : (List.range' 0 a).filter p = [] := by
    rw [List.filter_eq_nil_iff]
    intro u hu
    have hub : u < a := by
      have := List.mem_range'_1.mp hu
      omega
    intro hp
    have := (h u (by omega)).mp hp
    omega
  have h2 : (List.range' a b).filter p = List.range' a b := by
    rw [List.filter_eq_self]
    intro u hu
    have hub := List.mem_range'_1.mp hu
    exact (h u (by omega)).mpr (by omega)
  have h3 : (List.range' (a + b) (m - (a + b))).filter p = [] := by
    rw [List.filter_eq_nil_iff]
    intro u hu
    have hub := List.mem_range'_1.mp hu
    intro hp
    have := (h u (by omega)).mp hp
    omega
  rw [h1, h2, h3]
  simp

/-- Splitting a flatMap at one element. -/
theorem flatMap_split_at (g : Nat → List Nat) (l : List Nat) (v : Nat)
    (hv : v < l.length) :
    l.flatMap g = (l.take v).flatMap g
      ++ (g (l.getD v 0) ++ (l.drop (v + 1)).flatMap g) := by
  conv_lhs => rw [← List.take_append_drop v l]
  rw [flatMap_append2, drop_getD_cons l v 0 hv, List.flatMap_cons]

/-- The r-th element of the v-th block of a flatMap. -/
theorem flatMap_block_getD (g : Nat → List Nat) (l : List Nat) (v r : Nat)
    (hv : v < l.length) (hr : r < (g (l.getD v 0)).length) :
    (l.flatMap g).getD (((l.take v).flatMap g).length + r) 0
      = (g (l.getD v 0)).getD r 0 := by
  rw [flatMap_split_at g l v hv, getD_append_r _ _ _ _ (by omega)]
  rw [show ((l.take v).flatMap g).length + r - ((l.take v).flatMap g).length
    = r from by omega]
  exact getD_append_l _ _ _ _ hr

/-- Every index into a flatMap decomposes into a block and an offset. -/
theorem flatMap_getD_decomp (g : Nat → List Nat) :
    ∀ (l : List Nat) (k : Nat), k < (l.flatMap g).length →
      ∃ v r, v < l.length ∧ r < (g (l.getD v 0)).length ∧
        k = ((l.take v).flatMap g).length + r ∧
        (l.flatMap g).getD k 0 = (g (l.getD v 0)).getD r 0 := by
  intro l
  induction l with
  | nil => intro k hk; simp at hk
  | cons x xs ih =>
      intro k hk
      rw [List.flatMap_cons] at hk
      simp only [List.length_append] at hk
      rcases Nat.lt_or_ge k (g x).length with hkx | hkx
      · refine ⟨0, k, by simp, by simpa using hkx, by simp, ?_⟩
        rw [List.flatMap_cons]
        simp only [List.getD_cons_zero]
        exact getD_append_l _ _ _ _ hkx
      · rcases ih (k - (g x).length) (by omega) with ⟨v, r, hv, hr, hk2, hval⟩
        refine ⟨v + 1, r, by simpa using hv, by simpa using hr, ?_, ?_⟩
        · simp only [List.take_succ_cons, List.flatMap_cons, List.length_append]
          omega
        · rw [List.flatMap_cons, getD_append_r _ _ _ _ (by omega)]
          simp only [List.getD_cons_succ]
          exact hval

/-- In the final invariant the block of children of position t fits inside
the new vector. -/
theorem relay_block_bound {α : Type} [Inhabited α] {old : List (ANode α)}
    {root : Nat} {nw : List (ANode α)} {m : List (Option Nat)} {app : List Nat}
    (hI : RelayInv old root nw m app app.length) (t : Nat)
    (ht : t < app.length) :
    blockStart old app t + (childrenOf old (app.getD t 0)).length
      ≤ app.length := by
  have hsucc : blockStart old app (t + 1)
      = blockStart old app t + (childrenOf old (app.getD t 0)).length := by
    simp only [blockStart]
    rw [take_succ_getD app t 0 ht, flatMap_append2]
    simp only [List.length_append, List.flatMap_cons, List.flatMap_nil,
      List.append_nil]
    omega
  have hmono := blockStart_mono old app (t + 1) app.length (by omega)
  have hend : blockStart old app app.length = app.length := by
    have := hI.lenEq
    simp only [blockStart]
    omega
  omega

/-- In the final invariant the element at offset r inside t's block is
the r-th scan child of the old node that t copies. -/
theorem relay_block_elem {α : Type} [Inhabited α] {old : List (ANode α)}
    {root : Nat} {nw : List (ANode α)} {m : List (Option Nat)} {app : List Nat}
    (hI : RelayInv old root nw m app app.length) (t r : Nat)
    (ht : t < app.length) (hr : r < (childrenOf old (app.getD t 0)).length) :
    blockStart old app t + r < app.length ∧
      app.getD (blockStart old app t + r) 0
        = (childrenOf old (app.getD t 0)).getD r 0 := by
  have hbound := relay_block_bound hI t ht
  have hlt : blockStart old app t + r < app.length := by omega
  refine ⟨hlt, ?_⟩
  have hflatall : app.drop 1 = app.flatMap (childrenOf old) := by
    have := hI.hflat
    rwa [List.take_length] at this
  have h1 : app.getD (blockStart old app t + r) 0
      = (app.drop 1).getD (blockStart old app t + r - 1) 0 := by
    rw [getD_drop2]
    congr 1
    simp only [blockStart]
    omega
  rw [h1, hflatall]
  have h2 : blockStart old app t + r - 1
      = ((app.take t).flatMap (childrenOf old)).length + r := by
    simp only [blockStart]
    omega
  rw [h2]
  exact flatMap_block_getD (childrenOf old) app t r ht hr

/-- In the final invariant the parent pointer of new position u is some t
exactly when u lies in t's block. -/
theorem relay_parent_block {α : Type} [Inhabited α] {old : List (ANode α)}
    {root : Nat} {nw : List (ANode α)} {m : List (Option Nat)} {app : List Nat}
    (hI : RelayInv old root nw m app app.length) (u t : Nat)
    (hu : u < app.length) (ht : t < app.length) :
    (nw.getD u defaultNode).parentIdx = some t ↔
      (blockStart old app t ≤ u ∧
        u < blockStart old app t + (childrenOf old (app.getD t 0)).length) := by
  have hflatall : app.drop 1 = app.flatMap (childrenOf old) := by
    have := hI.hflat
    rwa [List.take_length] at this
  have hlen1 : (app.flatMap (childrenOf old)).length = app.length - 1 := by
    rw [← hflatall]
    simp
  constructor
  · intro hpar
    have hu0 : 0 < u := by
      rcases Nat.eq_zero_or_pos u with h0 | h0
      · rw [h0, hI.hpar0] at hpar
        cases hpar
      · exact h0
    rcases hI.hpar u hu0 hu with ⟨p, hpold, hpmem, hppos⟩
    rw [hpar] at hppos
    rcases posOf_eq_some p app t hppos.symm with ⟨_, happt⟩
    rcases flatMap_getD_decomp (childrenOf old) app (u - 1)
        (by omega) with ⟨v, r, hv, hr, hudec, hval⟩
    have happu : app.getD u 0 = (childrenOf old (app.getD v 0)).getD r 0 := by
      rw [← hval, ← hflatall, getD_drop2]
      congr 1
      omega
    have hmemc : app.getD u 0 ∈ childrenOf old (app.getD v 0) := by
      rw [happu]
      exact getD_mem_of_lt _ 0 r hr
    have hparu := ((mem_childrenOf old _ _).mp hmemc).2.2
    have hpv : p = app.getD v 0 :=
      Option.some_injective _ (hpold.symm.trans hparu)
    have htv : t = v := by
      have h1 := posOf_getD app hI.hnd t ht
      have h2 := posOf_getD app hI.hnd v hv
      rw [← hpv, ← happt] at h2
      exact Option.some_injective _ (h1.symm.trans h2)
    subst htv
    simp only [blockStart]
    omega
  · rintro ⟨hlo, hhi⟩
    have hrlt : u - blockStart old app t
        < (childrenOf old (app.getD t 0)).length := by omega
    rcases relay_block_elem hI t (u - blockStart old app t) ht hrlt
      with ⟨_, helem⟩
    rw [show blockStart old app t + (u - blockStart old app t) = u
      from by omega] at helem
    have hmemc : app.getD u 0 ∈ childrenOf old (app.getD t 0) := by
      rw [helem]
      exact getD_mem_of_lt _ 0 _ hrlt
    have hparu := ((mem_childrenOf old _ _).mp hmemc).2.2
    have hu0 : 0 < u := by
      have : 1 ≤ blockStart old app t := by
        simp only [blockStart]
        omega
      omega
    rcases hI.hpar u hu0 hu with ⟨p, hpold, hpmem, hppos⟩
    have hpt : p = app.getD t 0 :=
      Option.some_injective _ (hpold.symm.trans hparu)
    rw [hppos, hpt, posOf_getD app hI.hnd t ht]

/-- In the final invariant the scan children of new position t are exactly
the contiguous block starting at blockStart. -/
theorem relay_children_canonical {α : Type} [Inhabited α]
    {old : List (ANode α)} {root : Nat} {nw : List (ANode α)}
    {m : List (Option Nat)} {app : List Nat}
    (hI : RelayInv old root nw m app app.length) (t : Nat)
    (ht : t < app.length) :
    childrenOf nw t = List.range' (blockStart old app t)
      (childrenOf old (app.getD t 0)).length := by
  have hshape : childrenOf nw t = (List.range app.length).filter (fun u =>
      (nw.getD u defaultNode).valid
        && decide ((nw.getD u defaultNode).parentIdx = some t)) := by
    rw [childrenOf, hI.hlen]
  rw [hshape]
  refine filter_range_interval app.length (blockStart old app t)
    (childrenOf old (app.getD t 0)).length _
    (relay_block_bound hI t ht) ?_
  intro u hu
  rw [Bool.and_eq_true, decide_eq_true_iff]
  constructor
  · rintro ⟨_, hpar⟩
    exact (relay_parent_block hI u t hu ht).mp hpar
  · intro hblk
    exact ⟨(hI.hdata u hu).2, (relay_parent_block hI u t hu ht).mpr hblk⟩

/-- In the final invariant every non-root new position has a parent pointer
strictly below it. -/
theorem relay_parent_lt {α : Type} [Inhabited α] {old : List (ANode α)}
    {root : Nat} {nw : List (ANode α)} {m : List (Option Nat)} {app : List Nat}
    (hI : RelayInv old root nw m app app.length) (u : Nat)
    (hu0 : 0 < u) (hu : u < app.length) :
    ∃ v, (nw.getD u defaultNode).parentIdx = some v ∧ v < u ∧
      v < app.length := by
  rcases hI.hpar u hu0 hu with ⟨p, hpold, hpmem, hppos⟩
  rcases hI.posOf_mem hpmem with ⟨v, hposv, hvlt, happv⟩
  refine ⟨v, by rw [hppos, hposv], ?_, hvlt⟩
  have hblk := (relay_parent_block hI u v hu hvlt).mp (by rw [hppos, hposv])
  have := hI.hpos v hvlt
  omega

/-- The number of valid nodes equals the number of valid slot indices. -/
theorem countValid {α : Type} [Inhabited α] :
    ∀ l : List (ANode α),
      (l.filter (fun nd => nd.valid)).length
        = ((List.range l.length).filter
            (fun i => (l.getD i defaultNode).valid)).length := by
  intro l
  induction l with
  | nil => simp
  | cons x xs ih =>
      have hcongr : (List.filter (fun i => ((x :: xs).getD i defaultNode).valid)
            (List.map Nat.succ (List.range xs.length))).length
          = (xs.filter (fun nd => nd.valid)).length := by
        rw [List.filter_map, List.length_map, ih]
        congr 1
      rw [List.length_cons, List.range_succ_eq_map, List.filter_cons,
        List.filter_cons]
      by_cases hx : x.valid = true
      · simp only [List.getD_cons_zero, hx, if_true, List.length_cons]
        rw [hcongr]
      · have hx2 : x.valid = false := by
          cases h : x.valid
          · rfl
          · exact absurd h hx
        simp only [List.getD_cons_zero, hx2, Bool.false_eq_true, if_false]
        rw [hcongr]

/-- C7: after FocusedNaryTree::rebalance_for_locality on a well-formed store,
every node with a positive child count has first_child pointing at the start
of the contiguous, gap-free index range holding exactly its children; the
result is a pure reordering along an injective enumeration app of exactly the
valid old slots, preserving the valid-node count, every payload, and the
parent-child relation with left-to-right (increasing-index) sibling order. -/
theorem relayout_postcondition {α : Type} [Inhabited α] (s : FTree α)
    (h : WfFocused s) :
    ∃ nw2 app, rebalance_for_locality s = some ⟨nw2, 0, s.treeSize, 0⟩ ∧
      nw2.length = app.length ∧ app.Nodup ∧
      (∀ x ∈ app, x < s.nodes.length ∧
        (s.nodes.getD x defaultNode).valid = true) ∧
      (∀ i, i < s.nodes.length → (s.nodes.getD i defaultNode).valid = true →
        i ∈ app) ∧
      (nw2.filter (fun nd => nd.valid)).length
        = (s.nodes.filter (fun nd => nd.valid)).length ∧
      (∀ t, t < nw2.length → 0 < (nw2.getD t defaultNode).childCount →
        ∃ b, (nw2.getD t defaultNode).firstChildIdx = some b ∧
          childrenOf nw2 t
            = List.range' b (nw2.getD t defaultNode).childCount) ∧
      (∀ t, t < nw2.length →
        (nw2.getD t defaultNode).data
            = (s.nodes.getD (app.getD t 0) defaultNode).data ∧
        (nw2.getD t defaultNode).valid = true ∧
        childrenOf nw2 t = (childrenOf s.nodes (app.getD t 0)).map
          (fun c => (posOf c app).getD 0)) := by
  obtain ⟨app, nw2, m2, hrun, hI, hcomp⟩ := rebalance_master s h
  obtain ⟨hroot, hrvalid, hrpar, hchase, hleaf⟩ := h
  refine ⟨nw2, app, hrun, hI.hlen, hI.hnd, hI.hmem, hcomp, ?_, ?_, ?_⟩
  · -- valid-node count
    have hall : nw2.filter (fun nd => nd.valid) = nw2 := by
      rw [List.filter_eq_self]
      intro nd hnd
      rcases (mem_iff_getD nw2 nd defaultNode).mp hnd with ⟨t, ht, hget⟩
      rw [← hget]
      exact (hI.hdata t (hI.hlen ▸ ht)).2
    have hsub1 : app ⊆ (List.range s.nodes.length).filter
        (fun i => (s.nodes.getD i defaultNode).valid) := by
      intro x hx
      rcases hI.hmem x hx with ⟨h1, h2⟩
      rw [List.mem_filter, List.mem_range]
      exact ⟨h1, h2⟩
    have hsub2 : (List.range s.nodes.length).filter
        (fun i => (s.nodes.getD i defaultNode).valid) ⊆ app := by
      intro x hx
      rw [List.mem_filter, List.mem_range] at hx
      exact hcomp x hx.1 hx.2
    have hnd2 : ((List.range s.nodes.length).filter
        (fun i => (s.nodes.getD i defaultNode).valid)).Nodup :=
      (List.nodup_range _).filter _
    have hle1 := List.Subperm.length_le (List.subperm_of_subset hI.hnd hsub1)
    have hle2 := List.Subperm.length_le (List.subperm_of_subset hnd2 hsub2)
    rw [hall, countValid s.nodes, hI.hlen]
    omega
  · -- contiguity
    intro t ht hcc
    rw [hI.hlen] at ht
    have htmem : app.getD t 0 ∈ app := getD_mem_of_lt app 0 t ht
    rcases hI.hmem _ htmem with ⟨hlt, hval⟩
    have hnonempty : childrenOf s.nodes (app.getD t 0) ≠ [] := by
      intro hemp
      have hcc0 := hI.hraw t ht (Or.inr hemp)
      rcases Nat.eq_zero_or_pos t with h0 | h0
      · subst h0
        have := (hcc0.1 rfl).2
        omega
      · have := (hcc0.2 h0).2
        have hocc := hleaf _ hlt hval hemp
        omega
    rcases hI.hproc t (by omega) hnonempty with ⟨hfc, hcount⟩
    exact ⟨blockStart s.nodes app t, hfc,
      by rw [hcount]; exact relay_children_canonical hI t ht⟩
  · -- payloads and the order-preserving child map
    intro t ht
    rw [hI.hlen] at ht
    refine ⟨(hI.hdata t ht).1, (hI.hdata t ht).2, ?_⟩
    rw [relay_children_canonical hI t ht]
    refine (ext_getD 0 _ _ ?_ ?_).symm
    · simp
    · intro r hr
      simp only [List.length_map] at hr
      rw [getD_map_of_lt _ _ _ _ 0 hr, range'_getD _ _ _ hr]
      rcases relay_block_elem hI t r ht hr with ⟨hblt, hbval⟩
      rw [← hbval, posOf_getD app hI.hnd _ hblt]
      rfl

/-- A concrete well-formed Focused store: root at slot 2 with two children in
slots 0 and 1, plus a tombstoned slot 3. -/
def fWit : FTree Int :=
  ⟨[⟨10, some 2, none, 0, true⟩, ⟨11, some 2, none, 0, true⟩,
    ⟨12, none, some 0, 2, true⟩, ⟨99, none, none, 0, false⟩], 2, 3, 5⟩

/-- The re-layout postcondition evaluated on the concrete store fWit. -/
theorem relayout_postcondition_witness :
    WfFocused fWit ∧
    (∃ nw2 app, rebalance_for_locality fWit = some ⟨nw2, 0, fWit.treeSize, 0⟩ ∧
      nw2.length = app.length ∧ app.Nodup ∧
      (∀ x ∈ app, x < fWit.nodes.length ∧
        (fWit.nodes.getD x defaultNode).valid = true) ∧
      (∀ i, i < fWit.nodes.length →
        (fWit.nodes.getD i defaultNode).valid = true → i ∈ app) ∧
      (nw2.filter (fun nd => nd.valid)).length
        = (fWit.nodes.filter (fun nd => nd.valid)).length ∧
      (∀ t, t < nw2.length → 0 < (nw2.getD t defaultNode).childCount →
        ∃ b, (nw2.getD t defaultNode).firstChildIdx = some b ∧
          childrenOf nw2 t
            = List.range' b (nw2.getD t defaultNode).childCount) ∧
      (∀ t, t < nw2.length →
        (nw2.getD t defaultNode).data
            = (fWit.nodes.getD (app.getD t 0) defaultNode).data ∧
        (nw2.getD t defaultNode).valid = true ∧
        childrenOf nw2 t = (childrenOf fWit.nodes (app.getD t 0)).map
          (fun c => (posOf c app).getD 0))) :=
  ⟨by unfold WfFocused; decide, relayout_postcondition fWit (by unfold WfFocused; decide)⟩

/-- Two array nodes with equal fields are equal. -/
theorem anode_ext {α : Type} (a b : ANode α) (h1 : a.data = b.data)
    (h2 : a.parentIdx = b.parentIdx) (h3 : a.firstChildIdx = b.firstChildIdx)
    (h4 : a.childCount = b.childCount) (h5 : a.valid = b.valid) : a = b := by
  cases a
  cases b
  simp_all

/-- posOf over an initial segment is the identity. -/
theorem posOf_range (n p : Nat) (h : p < n) :
    posOf p (List.range n) = some p := by
  have := posOf_getD (List.range n) (List.nodup_range n) p (by simpa using h)
  rwa [range_getD n p h] at this

/-- In the final invariant every new position chases back to position 0. -/
theorem relay_chase {α : Type} [Inhabited α] {old : List (ANode α)}
    {root : Nat} {nw : List (ANode α)} {m : List (Option Nat)} {app : List Nat}
    (hI : RelayInv old root nw m app app.length) :
    ∀ fuel u, u ≤ fuel → u < app.length → chaseAux nw 0 fuel u = true := by
  intro fuel
  induction fuel with
  | zero =>
      intro u hu _
      have : u = 0 := by omega
      subst this
      simp [chaseAux]
  | succ fuel ih =>
      intro u hu hul
      by_cases h0 : u = 0
      · subst h0
        simp [chaseAux]
      · rcases relay_parent_lt hI u (Nat.pos_of_ne_zero h0) hul
          with ⟨v, hv, hvlt, hvapp⟩
        have h1 : v < nw.length := by
          rw [hI.hlen]
          omega
        have h2 := (hI.hdata v hvapp).2
        have h3 := ih v (by omega) hvapp
        have h2b : nw[v].valid = true := by
          rw [List.getD_eq_getElem?_getD, List.getElem?_eq_getElem h1] at h2
          simpa using h2
        simp only [chaseAux, if_neg h0]
        rw [hv]
        simp [h1, h2b, h3]

/-- The new vector produced by the re-layout is itself a well-formed store
with root 0, for any size and operation counters. -/
theorem relay_out_wf {α : Type} [Inhabited α] {old : List (ANode α)}
    {root : Nat} {nw : List (ANode α)} {m : List (Option Nat)} {app : List Nat}
    (hI : RelayInv old root nw m app app.length)
    (hleaf_old : ∀ i, i < old.length →
      (old.getD i defaultNode).valid = true → childrenOf old i = [] →
      (old.getD i defaultNode).childCount = 0)
    (sz ops : Nat) :
    WfFocused (⟨nw, 0, sz, ops⟩ : FTree α) := by
  have hlen0 : 0 < nw.length := by
    rw [hI.hlen]
    exact hI.hne
  refine ⟨hlen0, (hI.hdata 0 hI.hne).2, hI.hpar0, ?_, ?_⟩
  · intro i hi _
    have hi2 : i < nw.length := hi
    exact relay_chase hI nw.length i (by omega) (by rw [← hI.hlen]; exact hi2)
  · intro t ht _ hemp
    rw [hI.hlen] at ht
    have hcan := relay_children_canonical hI t ht
    rw [hemp] at hcan
    have hc0 : (childrenOf old (app.getD t 0)).length = 0 := by
      have := congrArg List.length hcan
      simpa using this.symm
    have hcnil : childrenOf old (app.getD t 0) = [] :=
      List.eq_nil_of_length_eq_zero hc0
    have hraw := hI.hraw t ht (Or.inr hcnil)
    rcases Nat.eq_zero_or_pos t with h0 | h0
    · subst h0
      exact (hraw.1 rfl).2
    · rw [(hraw.2 h0).2]
      have htmem := getD_mem_of_lt app 0 t ht
      rcases hI.hmem _ htmem with ⟨hlt, hval⟩
      exact hleaf_old _ hlt hval hcnil

/-- The children blocks of the first v new positions have the same total
length whether scanned in the new vector or in the old one along app. -/
theorem relay_blocks_sum {α : Type} [Inhabited α] {old : List (ANode α)}
    {root : Nat} {nw : List (ANode α)} {m : List (Option Nat)} {app : List Nat}
    (hI : RelayInv old root nw m app app.length) :
    ∀ v, v ≤ app.length →
      ((List.range v).flatMap (childrenOf nw)).length
        = ((app.take v).flatMap (childrenOf old)).length := by
  intro v
  induction v with
  | zero => simp
  | succ v ih =>
      intro hv
      have hvlt : v < app.length := by omega
      rw [List.range_succ, flatMap_append2, take_succ_getD app v 0 hvlt,
        flatMap_append2]
      simp only [List.length_append, List.flatMap_cons, List.flatMap_nil,
        List.append_nil]
      rw [ih (by omega), relay_children_canonical hI v hvlt]
      simp

/-- Re-running the loop on the already-laid-out vector enumerates positions
in order: the t-th appended old index is t itself. -/
theorem relay_app_id {α : Type} [Inhabited α] {old : List (ANode α)}
    {root : Nat} {nw : List (ANode α)} {m : List (Option Nat)} {app : List Nat}
    {nw3 : List (ANode α)} {m3 : List (Option Nat)} {app2 : List Nat}
    (hI : RelayInv old root nw m app app.length)
    (hI2 : RelayInv nw 0 nw3 m3 app2 app2.length)
    (hle : app2.length ≤ app.length) :
    ∀ t, t < app2.length → app2.getD t 0 = t := by
  intro t
  induction t using Nat.strong_induction_on with
  | _ t ih =>
      intro ht
      rcases Nat.eq_zero_or_pos t with h0 | h0
      · subst h0
        exact hI2.hhead
      · have hflat2 : app2.drop 1 = app2.flatMap (childrenOf nw) := by
          have := hI2.hflat
          rwa [List.take_length] at this
        have hlen1 : (app2.flatMap (childrenOf nw)).length
            = app2.length - 1 := by
          rw [← hflat2]
          simp
        rcases flatMap_getD_decomp (childrenOf nw) app2 (t - 1) (by omega)
          with ⟨v, r, hv, hr, hdec, hval⟩
        have happt : app2.getD t 0 = (childrenOf nw (app2.getD v 0)).getD r 0 := by
          rw [← hval, ← hflat2, getD_drop2]
          congr 1
          omega
        have hBv : t = blockStart nw app2 v + r := by
          simp only [blockStart]
          omega
        have hp := hI2.hpos v hv
        have hvt : v < t := by omega
        have hpre : app2.take v = List.range v := by
          apply ext_getD 0
          · rw [List.length_take, List.length_range]
            omega
          · intro u hu
            have hu2 : u < v := by
              rw [List.length_take] at hu
              omega
            rw [getD_take2 _ _ _ _ hu2, range_getD v u hu2]
            exact ih u (by omega) (by omega)
        have hveq : app2.getD v 0 = v := ih v hvt hv
        have hcan := relay_children_canonical hI v (by omega)
        rw [hveq, hcan] at happt
        rw [hveq, hcan] at hr
        rw [range'_getD _ _ _ (by simpa using hr)] at happt
        have hbeq : blockStart nw app2 v = blockStart old app v := by
          simp only [blockStart]
          rw [hpre, relay_blocks_sum hI v (by omega)]
        rw [happt, ← hbeq]
        omega

/-- C8: on a well-formed store FocusedNaryTree::rebalance_for_locality is
idempotent: running it a second time returns exactly the store produced by
the first run, slot for slot, links and indices included. -/
theorem relayout_idempotent {α : Type} [Inhabited α] (s : FTree α)
    (h : WfFocused s) :
    ∃ s2, rebalance_for_locality s = some s2 ∧
      rebalance_for_locality s2 = some s2 := by
  obtain ⟨app, nw2, m2, hrun, hI, hcomp⟩ := rebalance_master s h
  have hwf2 : WfFocused (⟨nw2, 0, s.treeSize, 0⟩ : FTree α) :=
    relay_out_wf hI h.2.2.2.2 s.treeSize 0
  obtain ⟨app2, nw3, m3, hrun2, hI2a, hcomp2a⟩ :=
    rebalance_master (⟨nw2, 0, s.treeSize, 0⟩ : FTree α) hwf2
  have hI2 : RelayInv nw2 0 nw3 m3 app2 app2.length := hI2a
  have hcomp2 : ∀ i, i < nw2.length →
      (nw2.getD i defaultNode).valid = true → i ∈ app2 := hcomp2a
  have hlen2 : nw2.length = app.length := hI.hlen
  have hlen_eq : app2.length = nw2.length := by
    have hle1 : app2.length ≤ nw2.length :=
      nodup_lt_length_le app2 nw2.length hI2.hnd (fun x hx => (hI2.hmem x hx).1)
    have hsub : List.range nw2.length ⊆ app2 := by
      intro x hx
      rw [List.mem_range] at hx
      exact hcomp2 x hx ((hI.hdata x (by omega)).2)
    have hle2 := List.Subperm.length_le
      (List.subperm_of_subset (List.nodup_range _) hsub)
    simp only [List.length_range] at hle2
    omega
  have happid := relay_app_id hI hI2 (by omega)
  have happ2 : app2 = List.range nw2.length := by
    apply ext_getD 0
    · rw [List.length_range]
      omega
    · intro r hr
      rw [happid r hr, range_getD nw2.length r (by omega)]
  have hnw : nw3 = nw2 := by
    apply ext_getD defaultNode
    · rw [hI2.hlen]
      omega
    · intro t htl
      rw [hI2.hlen] at htl
      have hta2 : t < app2.length := htl
      have htn : t < nw2.length := by omega
      have hta : t < app.length := by omega
      have hget : app2.getD t 0 = t := happid t hta2
      have hdata_eq : (nw3.getD t defaultNode).data
          = (nw2.getD t defaultNode).data := by
        rw [(hI2.hdata t hta2).1, hget]
      have hvalid_eq : (nw3.getD t defaultNode).valid
          = (nw2.getD t defaultNode).valid := by
        rw [(hI2.hdata t hta2).2, (hI.hdata t hta).2]
      have hpar_eq : (nw3.getD t defaultNode).parentIdx
          = (nw2.getD t defaultNode).parentIdx := by
        rcases Nat.eq_zero_or_pos t with h0 | h0
        · subst h0
          rw [hI2.hpar0, hI.hpar0]
        · rcases hI2.hpar t h0 hta2 with ⟨p, hpold, hpmem, hppos⟩
          rw [hget] at hpold
          have hplt : p < nw2.length := (hI2.hmem p hpmem).1
          rw [hppos, happ2, posOf_range nw2.length p hplt, hpold]
      have hfccc : (nw3.getD t defaultNode).firstChildIdx
            = (nw2.getD t defaultNode).firstChildIdx ∧
          (nw3.getD t defaultNode).childCount
            = (nw2.getD t defaultNode).childCount := by
        by_cases hcs : childrenOf nw2 (app2.getD t 0) = []
        · have hraw2 := hI2.hraw t hta2 (Or.inr hcs)
          rw [hget] at hcs
          rcases Nat.eq_zero_or_pos t with h0 | h0
          · subst h0
            have h30 := hraw2.1 rfl
            have hcan := relay_children_canonical hI 0 (by omega)
            rw [hcan] at hcs
            have hc0 : (childrenOf s.nodes (app.getD 0 0)).length = 0 := by
              have := congrArg List.length hcs
              simpa using this
            have hnil := List.eq_nil_of_length_eq_zero hc0
            have hraw1 := (hI.hraw 0 (by omega) (Or.inr hnil)).1 rfl
            rw [h30.1, h30.2, hraw1.1, hraw1.2]
            exact ⟨rfl, rfl⟩
          · have h3t := hraw2.2 h0
            rw [h3t.1, h3t.2, hget]
            exact ⟨rfl, rfl⟩
        · have hproc2 := hI2.hproc t hta2 hcs
          rw [hget] at hproc2 hcs
          have hcan := relay_children_canonical hI t hta
          have hcnz : childrenOf s.nodes (app.getD t 0) ≠ [] := by
            intro hnil
            apply hcs
            rw [hcan, hnil]
            simp
          have hproc1 := hI.hproc t hta hcnz
          have hpre : app2.take t = List.range t := by
            rw [happ2, List.take_range t nw2.length,
              show min t nw2.length = t from by omega]
          have hbeq : blockStart nw2 app2 t = blockStart s.nodes app t := by
            simp only [blockStart]
            rw [hpre, relay_blocks_sum hI t (by omega)]
          constructor
          · rw [hproc2.1, hproc1.1, hbeq]
          · rw [hproc2.2, hproc1.2, hcan]
            simp
      exact anode_ext _ _ hdata_eq hpar_eq hfccc.1 hfccc.2 hvalid_eq
  refine ⟨⟨nw2, 0, s.treeSize, 0⟩, hrun, ?_⟩
  rw [hrun2, hnw]

/-- Idempotence of the re-layout evaluated on the concrete store fWit. -/
theorem relayout_idempotent_witness :
    WfFocused fWit ∧
    ∃ s2, rebalance_for_locality fWit = some s2 ∧
      rebalance_for_locality s2 = some s2 :=
  ⟨by unfold WfFocused; decide,
    relayout_idempotent fWit (by unfold WfFocused; decide)⟩
